import Mathlib

/-!
Verification development for the binread declarative binary-deserialization
engine and its derive-side write prelude.

The repository ships, under its source tree, a documentation-only module
(binread/src/attribute.rs) describing the per-field directive pipeline, and
one code-generation file (binrw_derive/src/codegen/write_options/prelude.rs).
The runtime engine itself (field pipeline executor, byte-order resolver,
variant selector, deferred-postprocess registry, error model) is not part of
the provided sources, so it is modelled here from the specification; the
definitions concerned carry a doc comment beginning with the words
Modelled from the spec.  The write-prelude generator is embedded directly
from prelude.rs.
-/

namespace BinSpec

/-- Modelled from the spec: a resolved byte order (the engine source is
absent; only the documentation module describes it).  The Configuration may
also say native, which is resolved against the platform default. -/
inductive ByteOrd where
  | big
  | little
deriving DecidableEq, Repr

/-- Modelled from the spec: the endianness recorded in a Configuration,
which may be big, little, or native. -/
inductive CfgEndian where
  | big
  | little
  | native
deriving DecidableEq, Repr

/-- Modelled from the spec: runtime values produced by the engine.
Integers cover the fixed-width fields, sequences cover count-produced
vectors, structure records and custom payload tuples, a tagged value covers
enum results, and absent is the representation stored for a failed try, a
false condition or an optional that was skipped. -/
inductive Value where
  | vint (i : Int)
  | vseq (vs : List Value)
  | vtag (idx : Nat) (v : Value)
  | absent

/-- Modelled from the spec: the error model.  BadMagic carries the stream
position of the mismatch, AssertFail carries position, message and the
optional caller-supplied custom payload, Io wraps an underlying stream
failure, NoVariantMatch and EnumErrors carry the per-variant breakdown, and
ContractViolation covers misuse such as forward references. -/
inductive Err where
  | badMagic (pos : Nat)
  | assertFail (pos : Nat) (msg : String) (payload : Option Value)
  | io
  | noVariantMatch (errs : List Err)
  | enumErrors (errs : List Err)
  | contractViolation (msg : String)

/-- Whether a value is the absent representation. -/
def Value.isAbsent : Value → Bool
  | .absent => true
  | _ => false

/-- Modelled from the spec: the expression language of the
Conditional/Computed Evaluator.  Expressions are evaluated over the bound
arguments and the already-materialized sibling values of the current scope;
a reference to a sibling that is not yet materialized is a contract
violation. -/
inductive Expr where
  | const (i : Int)
  | field (i : Nat)
  | arg (i : Nat)
  | add (a b : Expr)
  | sub (a b : Expr)
  | mul (a b : Expr)
  | gtE (a b : Expr)
  | eqE (a b : Expr)
  | pairE (a b : Expr)
deriving DecidableEq, Repr

/-- Modelled from the spec: evaluation of an expression over the argument
bag and the sibling slots of the current scope.  A slot holding none is a
field that has not been materialized yet; referencing it is a contract
violation, as is applying an arithmetic operation to a non-integer. -/
def evalExpr (args : List Value) (vals : List (Option Value)) : Expr → Except Err Value
  | .const i => .ok (.vint i)
  | .field i =>
    match vals[i]? with
    | some (some v) => .ok v
    | some none => .error (.contractViolation "reference to a field that is not yet materialized")
    | none => .error (.contractViolation "reference to a field outside the scope")
  | .arg i =>
    match args[i]? with
    | some v => .ok v
    | none => .error (.contractViolation "argument index out of range")
  | .add a b =>
    match evalExpr args vals a, evalExpr args vals b with
    | .ok (.vint x), .ok (.vint y) => .ok (.vint (x + y))
    | .error e, _ => .error e
    | _, .error e => .error e
    | _, _ => .error (.contractViolation "arithmetic on a non-integer")
  | .sub a b =>
    match evalExpr args vals a, evalExpr args vals b with
    | .ok (.vint x), .ok (.vint y) => .ok (.vint (x - y))
    | .error e, _ => .error e
    | _, .error e => .error e
    | _, _ => .error (.contractViolation "arithmetic on a non-integer")
  | .mul a b =>
    match evalExpr args vals a, evalExpr args vals b with
    | .ok (.vint x), .ok (.vint y) => .ok (.vint (x * y))
    | .error e, _ => .error e
    | _, .error e => .error e
    | _, _ => .error (.contractViolation "arithmetic on a non-integer")
  | .gtE a b =>
    match evalExpr args vals a, evalExpr args vals b with
    | .ok (.vint x), .ok (.vint y) => .ok (.vint (if y < x then 1 else 0))
    | .error e, _ => .error e
    | _, .error e => .error e
    | _, _ => .error (.contractViolation "comparison on a non-integer")
  | .eqE a b =>
    match evalExpr args vals a, evalExpr args vals b with
    | .ok (.vint x), .ok (.vint y) => .ok (.vint (if x = y then 1 else 0))
    | .error e, _ => .error e
    | _, .error e => .error e
    | _, _ => .error (.contractViolation "comparison on a non-integer")
  | .pairE a b =>
    match evalExpr args vals a, evalExpr args vals b with
    | .ok x, .ok y => .ok (.vseq [x, y])
    | .error e, _ => .error e
    | _, .error e => .error e

/-- Modelled from the spec: boolean use of an expression, as in condition
directives, guarded endian overrides and assert directives: an integer is
truthy when it is nonzero; any other value is a contract violation. -/
def evalCondE (args : List Value) (vals : List (Option Value)) (e : Expr) : Except Err Bool :=
  match evalExpr args vals e with
  | .ok (.vint i) => .ok (i ≠ 0)
  | .ok _ => .error (.contractViolation "condition did not evaluate to an integer")
  | .error er => .error er

/-- Modelled from the spec: a field's endian override: none, unconditional,
or boolean-guarded.  When the guard evaluates to false the override does not
apply and resolution falls through to the next precedence level. -/
inductive EndianOverride where
  | noOv
  | uncond (e : ByteOrd)
  | guarded (e : ByteOrd) (g : Expr)

/-- Modelled from the spec: postprocess timing, inline or deferred. -/
inductive PostTiming where
  | inlineNow
  | deferredLater
deriving DecidableEq, Repr

/-- Modelled from the spec: an injected mapping function with an optional
explicit inverse; when no inverse is supplied the mapping is read-only and
the write path emits the stored value unchanged. -/
structure MapSpec where
  toFn : Value → Value
  invFn : Option (Value → Value)

/-- Modelled from the spec: a FieldDirective.  The underlying type of every
field is a fixed-width unsigned integer of the given byte width (nested
descriptors and custom parser functions are outside this model; offset-style
secondary resolution is modelled by the postprocess hook expression). -/
structure FieldDirective where
  width : Nat
  endianOverride : EndianOverride := .noOv
  magicBytes : Option (List Nat) := none
  condExpr : Option Expr := none
  defaultFlag : Bool := false
  postTiming : PostTiming := .inlineNow
  postHook : Option Expr := none
  padBefore : Option Nat := none
  alignBefore : Option Nat := none
  padAfter : Option Nat := none
  alignAfter : Option Nat := none
  countExpr : Option Expr := none
  mapFn : Option MapSpec := none
  calcExpr : Option Expr := none
  tryFlag : Bool := false
  restorePosition : Bool := false

/-- Modelled from the spec: an assert directive with its condition, message
and optional custom-payload expression. -/
structure AssertDirective where
  condE : Expr
  msg : String
  payload : Option Expr := none

/-- Modelled from the spec: a Configuration: endianness (possibly native),
the typed argument bag, an optional absolute starting offset, and the
platform native byte order it resolves native against. -/
structure Config where
  endianness : CfgEndian
  nativeOrd : ByteOrd
  args : List Value := []
  startOffset : Option Nat := none

/-- Modelled from the spec: resolution of the levels above the field:
variant-level beats type-level beats the inherited Configuration beats the
native default. -/
def resolveUpper (cfg : Config) (typeOrd variantOrd : Option ByteOrd) : ByteOrd :=
  match variantOrd with
  | some e => e
  | none =>
    match typeOrd with
    | some e => e
    | none =>
      match cfg.endianness with
      | .big => .big
      | .little => .little
      | .native => cfg.nativeOrd

/-- Modelled from the spec: the Byte-Order Resolver.  A field-level override
(possibly guarded, its guard evaluated against already-parsed siblings)
beats the variant level, the type level, the inherited Configuration and the
native default, in that order; the result is fixed for the remainder of the
field's processing. -/
def resolveEndian (cfg : Config) (typeOrd variantOrd : Option ByteOrd)
    (fieldOv : EndianOverride) (vals : List (Option Value)) : Except Err ByteOrd :=
  match fieldOv with
  | .uncond e => .ok e
  | .guarded e g =>
    match evalCondE cfg.args vals g with
    | .ok true => .ok e
    | .ok false => .ok (resolveUpper cfg typeOrd variantOrd)
    | .error er => .error er
  | .noOv => .ok (resolveUpper cfg typeOrd variantOrd)

/-- Modelled from the spec: the read side of the Stream Cursor: a byte
source with absolute-position tracking. -/
structure RS where
  data : List Nat
  pos : Nat
deriving DecidableEq, Repr

/-- Modelled from the spec: read exactly n bytes from the cursor; an
underlying end-of-stream is surfaced as an Io error. -/
def rReadBytes (n : Nat) (s : RS) : Except Err (List Nat × RS) :=
  if s.pos + n ≤ s.data.length then
    .ok ((s.data.drop s.pos).take n, { s with pos := s.pos + n })
  else .error .io

/-- Big-endian interpretation of a byte list as a natural number. -/
def bytesToNatBE (bs : List Nat) : Nat := bs.foldl (fun acc b => acc * 256 + b) 0

/-- Big-endian encoding of a natural number into the given number of bytes. -/
def natToBytesBE : Nat → Nat → List Nat
  | 0, _ => []
  | w + 1, n => natToBytesBE w (n / 256) ++ [n % 256]

/-- Modelled from the spec: decoding a fixed-width unsigned integer with the
resolved byte order. -/
def bytesToInt (e : ByteOrd) (bs : List Nat) : Int :=
  match e with
  | .big => (bytesToNatBE bs : Int)
  | .little => (bytesToNatBE bs.reverse : Int)

/-- Modelled from the spec: encoding a fixed-width unsigned integer with the
resolved byte order. -/
def intToBytes (e : ByteOrd) (w : Nat) (i : Int) : List Nat :=
  match e with
  | .big => natToBytesBE w i.toNat
  | .little => (natToBytesBE w i.toNat).reverse

/-- Number of bytes to skip so that pos lands on the next multiple of n. -/
def alignSkip (pos n : Nat) : Nat := if n = 0 then 0 else (n - pos % n) % n

/-- Modelled from the spec: pad directives skip a constant number of bytes
on the read side. -/
def applyOptPadR (p : Option Nat) (s : RS) : RS :=
  match p with
  | some n => { s with pos := s.pos + n }
  | none => s

/-- Modelled from the spec: align directives skip to the next aligned byte
on the read side. -/
def applyOptAlignR (a : Option Nat) (s : RS) : RS :=
  match a with
  | some n => { s with pos := s.pos + alignSkip s.pos n }
  | none => s

/-- Modelled from the spec: step 1 of the field pipeline, align-before then
pad-before. -/
def applyPreR (fd : FieldDirective) (s : RS) : RS :=
  applyOptPadR fd.padBefore (applyOptAlignR fd.alignBefore s)

/-- Modelled from the spec: step 11 of the field pipeline, pad-after then
align-after. -/
def applyPostR (fd : FieldDirective) (s : RS) : RS :=
  applyOptAlignR fd.alignAfter (applyOptPadR fd.padAfter s)

/-- Modelled from the spec: read the canonical bytes of a magic value and
compare; a mismatch fails with BadMagic carrying the position at which the
magic was expected, while a stream failure while reading them is Io. -/
def readMagic (m : List Nat) (s : RS) : Except Err RS :=
  match rReadBytes m.length s with
  | .ok (bs, s1) => if bs = m then .ok s1 else .error (.badMagic s.pos)
  | .error er => .error er

/-- Modelled from the spec: optional magic check. -/
def readMagicOpt (m : Option (List Nat)) (s : RS) : Except Err RS :=
  match m with
  | some mm => readMagic mm s
  | none => .ok s

/-- Modelled from the spec: the count directive repeats the element parse
exactly n times, producing a fixed-length ordered sequence. -/
def readElems (e : ByteOrd) (w : Nat) : Nat → RS → Except Err (List Value × RS)
  | 0, s => .ok ([], s)
  | n + 1, s =>
    match rReadBytes w s with
    | .ok (bs, s1) =>
      match readElems e w n s1 with
      | .ok (vs, s2) => .ok (.vint (bytesToInt e bs) :: vs, s2)
      | .error er => .error er
    | .error er => .error er

/-- Modelled from the spec: the default-constructed value stored by the
default directive: an empty sequence for a counted field, zero otherwise. -/
def defaultVal (fd : FieldDirective) : Value :=
  match fd.countExpr with
  | some _ => .vseq []
  | none => .vint 0

/-- Modelled from the spec: steps 6 to 9 of the field pipeline, the value
production: default beats calc beats count beats the plain fixed-width
parse.  A negative count surfaces Io, never an abort. -/
def produceValue (cfg : Config) (vals : List (Option Value)) (fd : FieldDirective)
    (e : ByteOrd) (s : RS) : Except Err (Value × RS) :=
  if fd.defaultFlag then .ok (defaultVal fd, s)
  else
    match fd.calcExpr with
    | some ce =>
      match evalExpr cfg.args vals ce with
      | .ok v => .ok (v, s)
      | .error er => .error er
    | none =>
      match fd.countExpr with
      | some ce =>
        match evalExpr cfg.args vals ce with
        | .ok (.vint n) =>
          if n < 0 then .error .io
          else
            match readElems e fd.width n.toNat s with
            | .ok (vs, s1) => .ok (.vseq vs, s1)
            | .error er => .error er
        | .ok _ => .error (.contractViolation "count did not evaluate to an integer")
        | .error er => .error er
      | none =>
        match rReadBytes fd.width s with
        | .ok (bs, s1) => .ok (.vint (bytesToInt e bs), s1)
        | .error er => .error er

/-- Modelled from the spec: step 10 of the field pipeline: apply the
mapping function to the produced value on the read path. -/
def mapApply (fd : FieldDirective) (v : Value) : Value :=
  match fd.mapFn with
  | some m => m.toFn v
  | none => v

/-- Modelled from the spec: steps 6 to 12 of the field pipeline: value
production, mapping, pad-after and alignment, then postprocess scheduling:
an inline hook runs immediately with visibility limited to the
already-parsed siblings (and the field itself), a deferred hook is handed
back for the Deferred-Postprocess Registry. -/
def readFieldBody (cfg : Config) (idx : Nat) (vals : List (Option Value))
    (fd : FieldDirective) (e : ByteOrd) (s : RS) :
    Except Err (Value × Option Value × Option Expr × RS) :=
  match produceValue cfg vals fd e s with
  | .error er => .error er
  | .ok (v0, s1) =>
    match fd.postHook with
    | none => .ok (mapApply fd v0, none, none, applyPostR fd s1)
    | some h =>
      match fd.postTiming with
      | .deferredLater => .ok (mapApply fd v0, none, some h, applyPostR fd s1)
      | .inlineNow =>
        match evalExpr cfg.args (vals.set idx (some (mapApply fd v0))) h with
        | .ok pv => .ok (mapApply fd v0, some pv, none, applyPostR fd s1)
        | .error er => .error er

/-- Seek back to the recorded position when the restore-position flag is
set. -/
def restoreIf (flag : Bool) (startPos : Nat) (s : RS) : RS :=
  if flag then { s with pos := startPos } else s

/-- Modelled from the spec: steps 4 and 5 of the field pipeline: the field
magic check, then the try gate: with the try flag, any failure of the
remaining steps rewinds the cursor to the pre-padding position recorded at
step 1 and stores the absent value, swallowing the error. -/
def readFieldAfterCond (cfg : Config) (idx : Nat) (vals : List (Option Value))
    (fd : FieldDirective) (e : ByteOrd) (startPos : Nat) (s1 : RS) :
    Except Err (Value × Option Value × Option Expr × RS) :=
  match readMagicOpt fd.magicBytes s1 with
  | .error er => .error er
  | .ok s2 =>
    if fd.tryFlag then
      match readFieldBody cfg idx vals fd e s2 with
      | .ok (v, p, d, s3) => .ok (v, p, d, restoreIf fd.restorePosition startPos s3)
      | .error _ => .ok (.absent, none, none, { s2 with pos := startPos })
    else
      match readFieldBody cfg idx vals fd e s2 with
      | .ok (v, p, d, s3) => .ok (v, p, d, restoreIf fd.restorePosition startPos s3)
      | .error er => .error er

/-- Modelled from the spec: the per-field read pipeline of the Field
Pipeline Executor: record the pre-padding position, apply align-before and
pad-before, resolve the byte order, evaluate the condition (a false
condition stores the absent value, consumes nothing further and skips all
remaining steps except restore-position bookkeeping), then run the magic
check, the try gate and the remaining steps. -/
def readField (cfg : Config) (typeOrd variantOrd : Option ByteOrd) (idx : Nat)
    (vals : List (Option Value)) (fd : FieldDirective) (s : RS) :
    Except Err (Value × Option Value × Option Expr × RS) :=
  match resolveEndian cfg typeOrd variantOrd fd.endianOverride vals with
  | .error er => .error er
  | .ok e =>
    match fd.condExpr with
    | some c =>
      match evalCondE cfg.args vals c with
      | .error er => .error er
      | .ok false =>
        .ok (.absent, none, none, restoreIf fd.restorePosition s.pos (applyPreR fd s))
      | .ok true => readFieldAfterCond cfg idx vals fd e s.pos (applyPreR fd s)
    | none => readFieldAfterCond cfg idx vals fd e s.pos (applyPreR fd s)

/-- Result of the inline phase of a scope: the materialized slots, the
posts produced so far, the deferred registry in declaration order, and the
cursor. -/
structure LoopOut where
  vals : List (Option Value)
  posts : List (Option Value)
  defs : List (Nat × Expr)
  rs : RS

/-- Modelled from the spec: the inline phase of the Field Pipeline Executor
over a scope: fields run in declaration order, each one materializing its
slot, recording its inline post result and appending any deferred hook to
the registry. -/
def readFieldsAux (cfg : Config) (typeOrd variantOrd : Option ByteOrd) :
    List FieldDirective → Nat → List (Option Value) → List (Option Value) →
    List (Nat × Expr) → RS → Except Err LoopOut
  | [], _, vals, posts, defs, s => .ok ⟨vals, posts, defs, s⟩
  | fd :: rest, idx, vals, posts, defs, s =>
    match readField cfg typeOrd variantOrd idx vals fd s with
    | .error er => .error er
    | .ok (v, p, d, s1) =>
      readFieldsAux cfg typeOrd variantOrd rest (idx + 1) (vals.set idx (some v))
        (posts.set idx p)
        (defs ++ (match d with | some h => [(idx, h)] | none => [])) s1

/-- Modelled from the spec: the Deferred-Postprocess Registry: after all
inline fields of the scope complete, each deferred hook runs in declaration
order with visibility into the complete sibling state. -/
def runDeferred (args : List Value) (vals : List (Option Value)) :
    List (Nat × Expr) → List (Option Value) → Except Err (List (Option Value))
  | [], posts => .ok posts
  | (i, h) :: rest, posts =>
    match evalExpr args vals h with
    | .ok v => runDeferred args vals rest (posts.set i (some v))
    | .error er => .error er

/-- Modelled from the spec: the error produced by a failing assert: an
AssertFail carrying the position, the message and the evaluated custom
payload; a payload whose own evaluation fails surfaces that error. -/
def assertFailure (args : List Value) (vals : List (Option Value)) (pos : Nat)
    (a : AssertDirective) : Err :=
  match a.payload with
  | none => .assertFail pos a.msg none
  | some pe =>
    match evalExpr args vals pe with
    | .ok v => .assertFail pos a.msg (some v)
    | .error er => er

/-- Modelled from the spec: assert directives run after the scope's fields
are fully parsed, in declared order, halting at the first failure. -/
def runAsserts (args : List Value) (vals : List (Option Value)) (pos : Nat) :
    List AssertDirective → Except Err Unit
  | [] => .ok ()
  | a :: rest =>
    match evalCondE args vals a.condE with
    | .error er => .error er
    | .ok true => runAsserts args vals pos rest
    | .ok false => .error (assertFailure args vals pos a)

/-- Modelled from the spec: a whole scope body: the scope magic check, the
inline field phase in declaration order, the deferred phase over the
complete sibling state, then the asserts; the produced value is the record
of the materialized slots. -/
def readBody (cfg : Config) (typeOrd variantOrd : Option ByteOrd)
    (magic : Option (List Nat)) (fields : List FieldDirective)
    (asserts : List AssertDirective) (s : RS) :
    Except Err ((Value × List (Option Value)) × RS) :=
  match readMagicOpt magic s with
  | .error er => .error er
  | .ok s1 =>
    match readFieldsAux cfg typeOrd variantOrd fields 0
        (List.replicate fields.length none) (List.replicate fields.length none) [] s1 with
    | .error er => .error er
    | .ok lo =>
      match runDeferred cfg.args lo.vals lo.defs lo.posts with
      | .error er => .error er
      | .ok posts =>
        match runAsserts cfg.args lo.vals lo.rs.pos asserts with
        | .error er => .error er
        | .ok _ => .ok ((.vseq (lo.vals.map (fun o => o.getD .absent)), posts), lo.rs)

/-- Modelled from the spec: a TypeDescriptor in record form: optional
type-level magic and endianness, the ordered field directives, and the
ordered assert directives. -/
structure StructDesc where
  typeEndian : Option ByteOrd := none
  magicBytes : Option (List Nat) := none
  fields : List FieldDirective
  asserts : List AssertDirective := []

/-- Modelled from the spec: a VariantDescriptor: its optional variant-level
endianness, its discriminating magic, its fields and asserts. -/
structure VariantDesc where
  variantEndian : Option ByteOrd := none
  magicBytes : Option (List Nat) := none
  fields : List FieldDirective
  asserts : List AssertDirective := []

/-- Modelled from the spec: how a tagged-union type aggregates variant
failures: first-match or collect-all. -/
inductive VariantMode where
  | firstMatch
  | collectAll
deriving DecidableEq, Repr

/-- Modelled from the spec: a tagged-union TypeDescriptor. -/
structure EnumDesc where
  mode : VariantMode
  typeEndian : Option ByteOrd := none
  variants : List VariantDesc

/-- Modelled from the spec: a TypeDescriptor is a record of field
directives or a set of variant descriptors. -/
inductive TypeDescriptor where
  | structD (sd : StructDesc)
  | enumD (ed : EnumDesc)

/-- Modelled from the spec: reading a record descriptor. -/
def readStructD (cfg : Config) (sd : StructDesc) (s : RS) :
    Except Err ((Value × List (Option Value)) × RS) :=
  readBody cfg sd.typeEndian none sd.magicBytes sd.fields sd.asserts s

/-- Modelled from the spec: one variant trial: the variant body with the
enum's type-level endianness and the variant-level endianness in scope. -/
def readVariant (cfg : Config) (typeOrd : Option ByteOrd) (v : VariantDesc) (s : RS) :
    Except Err ((Value × List (Option Value)) × RS) :=
  readBody cfg typeOrd v.variantEndian v.magicBytes v.fields v.asserts s

/-- Modelled from the spec: the Variant Selector and Error Aggregator:
variants are attempted in declaration order, every trial starting from the
scope's pre-attempt cursor; a success short-circuits.  On total failure,
collect-all mode returns EnumErrors with one error per variant in
declaration order, while first-match mode propagates the last attempted
variant's error, or a composite NoVariantMatch when there was none. -/
def readVariantsAux (cfg : Config) (typeOrd : Option ByteOrd) (mode : VariantMode)
    (start : RS) : List VariantDesc → Nat → List Err →
    Except Err ((Value × List (Option Value)) × RS)
  | [], _, errsAcc =>
    match mode with
    | .collectAll => .error (.enumErrors errsAcc)
    | .firstMatch =>
      match errsAcc.getLast? with
      | some er => .error er
      | none => .error (.noVariantMatch [])
  | v :: rest, idx, errsAcc =>
    match readVariant cfg typeOrd v start with
    | .ok ((val, posts), s1) => .ok ((.vtag idx val, posts), s1)
    | .error er => readVariantsAux cfg typeOrd mode start rest (idx + 1) (errsAcc ++ [er])

/-- Modelled from the spec: reading a tagged-union descriptor. -/
def readEnumD (cfg : Config) (ed : EnumDesc) (s : RS) :
    Except Err ((Value × List (Option Value)) × RS) :=
  readVariantsAux cfg ed.typeEndian ed.mode s ed.variants 0 []

/-- Modelled from the spec: seek the read cursor to the Configuration's
optional starting offset. -/
def startAtR (cfg : Config) (s : RS) : RS :=
  match cfg.startOffset with
  | some o => { s with pos := o }
  | none => s

/-- Modelled from the spec: the read entry point: apply the Configuration's
optional starting offset, then dispatch on the descriptor. -/
def readType (cfg : Config) (td : TypeDescriptor) (s : RS) :
    Except Err ((Value × List (Option Value)) × RS) :=
  match td with
  | .structD sd => readStructD cfg sd (startAtR cfg s)
  | .enumD ed => readEnumD cfg ed (startAtR cfg s)

/-- Modelled from the spec: the write side of the Stream Cursor: a seekable
byte sink with absolute-position tracking and overwrite semantics. -/
structure WS where
  data : List Nat
  pos : Nat
deriving DecidableEq, Repr

/-- Write one byte at the cursor: overwrite in place, append at the end, or
fill an unwritten gap with the canonical zero filler. -/
def wWriteByte (b : Nat) (w : WS) : WS :=
  if w.pos < w.data.length then { data := w.data.set w.pos b, pos := w.pos + 1 }
  else if w.pos = w.data.length then { data := w.data ++ [b], pos := w.pos + 1 }
  else { data := w.data ++ List.replicate (w.pos - w.data.length) 0 ++ [b], pos := w.pos + 1 }

/-- Write a byte list at the cursor. -/
def wWriteBytes : List Nat → WS → WS
  | [], w => w
  | b :: rest, w => wWriteBytes rest (wWriteByte b w)

/-- Modelled from the spec: pad directives on the write side emit the
canonical, deterministic zero filler. -/
def applyOptPadW (p : Option Nat) (w : WS) : WS :=
  match p with
  | some n => wWriteBytes (List.replicate n 0) w
  | none => w

/-- Modelled from the spec: align directives on the write side emit zero
filler up to the next aligned byte. -/
def applyOptAlignW (a : Option Nat) (w : WS) : WS :=
  match a with
  | some n => wWriteBytes (List.replicate (alignSkip w.pos n) 0) w
  | none => w

/-- Modelled from the spec: step 1 of the write pipeline. -/
def applyPreW (fd : FieldDirective) (w : WS) : WS :=
  applyOptPadW fd.padBefore (applyOptAlignW fd.alignBefore w)

/-- Modelled from the spec: step 11 of the write pipeline. -/
def applyPostW (fd : FieldDirective) (w : WS) : WS :=
  applyOptAlignW fd.alignAfter (applyOptPadW fd.padAfter w)

/-- Seek the sink back to the recorded position when the restore-position
flag is set. -/
def restoreIfW (flag : Bool) (startPos : Nat) (w : WS) : WS :=
  if flag then { w with pos := startPos } else w

/-- Modelled from the spec: write the elements of a counted sequence in
order. -/
def writeElems (e : ByteOrd) (wd : Nat) : List Value → WS → Except Err WS
  | [], w => .ok w
  | v :: rest, w =>
    match v with
    | .vint i => writeElems e wd rest (wWriteBytes (intToBytes e wd i) w)
    | _ => .error (.contractViolation "sequence element is not an integer")

/-- Modelled from the spec: write the canonical bytes of an optional magic
value. -/
def writeMagicW (m : Option (List Nat)) (w : WS) : WS :=
  match m with
  | some mm => wWriteBytes mm w
  | none => w

/-- Modelled from the spec: the write path applies a mapping only when an
explicit inverse is supplied; otherwise the mapping is read-only and the
stored value is emitted unchanged. -/
def unmapValue (fd : FieldDirective) (v : Value) : Value :=
  match fd.mapFn with
  | some m =>
    match m.invFn with
    | some g => g v
    | none => v
  | none => v

/-- Modelled from the spec: the value-emission steps of the write pipeline:
an absent value emits nothing (the try and conditional cases), default and
calc fields emit nothing, a counted field emits its elements, and a plain
field emits its fixed-width encoding. -/
def emitValue (fd : FieldDirective) (e : ByteOrd) (v : Value) (w : WS) : Except Err WS :=
  if v.isAbsent then .ok w
  else if fd.defaultFlag then .ok w
  else
    match fd.calcExpr with
    | some _ => .ok w
    | none =>
      match fd.countExpr with
      | some _ =>
        match v with
        | .vseq vs => writeElems e fd.width vs w
        | _ => .error (.contractViolation "counted field value is not a sequence")
      | none =>
        match v with
        | .vint i => .ok (wWriteBytes (intToBytes e fd.width i) w)
        | _ => .error (.contractViolation "field value is not an integer")

/-- Modelled from the spec: the tail of the per-field write pipeline after
the condition check.  An absent stored value (a swallowed try, mirroring
the read-side rewind that undoes the whole attempt) writes nothing at all;
otherwise write the field magic, unmap, emit the value, apply pad-after,
and honor restore-position. -/
def writeFieldAfterCond (fd : FieldDirective) (e : ByteOrd) (idx : Nat)
    (record : List Value) (startPos : Nat) (w1 : WS) : Except Err WS :=
  match record[idx]? with
  | none => .error (.contractViolation "record shape mismatch")
  | some v0 =>
    if v0.isAbsent then .ok (restoreIfW fd.restorePosition startPos w1)
    else
      match emitValue fd e (unmapValue fd v0) (writeMagicW fd.magicBytes w1) with
      | .error er => .error er
      | .ok w3 => .ok (restoreIfW fd.restorePosition startPos (applyPostW fd w3))

/-- Modelled from the spec: the per-field write pipeline, mirroring the read
pipeline: record the pre-padding position, emit padding, resolve the byte
order, evaluate the condition over the complete record (a false condition
writes nothing), then write magic and value. -/
def writeField (cfg : Config) (typeOrd variantOrd : Option ByteOrd) (idx : Nat)
    (record : List Value) (fd : FieldDirective) (w : WS) : Except Err WS :=
  match resolveEndian cfg typeOrd variantOrd fd.endianOverride (record.map some) with
  | .error er => .error er
  | .ok e =>
    match fd.condExpr with
    | some c =>
      match evalCondE cfg.args (record.map some) c with
      | .error er => .error er
      | .ok false => .ok (restoreIfW fd.restorePosition w.pos (applyPreW fd w))
      | .ok true => writeFieldAfterCond fd e idx record w.pos (applyPreW fd w)
    | none => writeFieldAfterCond fd e idx record w.pos (applyPreW fd w)

/-- Modelled from the spec: the write pipeline over a scope's fields in
declaration order. -/
def writeFieldsAux (cfg : Config) (typeOrd variantOrd : Option ByteOrd)
    (record : List Value) : List FieldDirective → Nat → WS → Except Err WS
  | [], _, w => .ok w
  | fd :: rest, idx, w =>
    match writeField cfg typeOrd variantOrd idx record fd w with
    | .error er => .error er
    | .ok w1 => writeFieldsAux cfg typeOrd variantOrd record rest (idx + 1) w1

/-- Modelled from the spec: writing a whole scope body: scope magic first,
then the fields in declaration order.  The write path has no deferred
registry and runs no asserts. -/
def writeBody (cfg : Config) (typeOrd variantOrd : Option ByteOrd)
    (magic : Option (List Nat)) (fields : List FieldDirective)
    (record : List Value) (w : WS) : Except Err WS :=
  writeFieldsAux cfg typeOrd variantOrd record fields 0 (writeMagicW magic w)

/-- Modelled from the spec: seek the write cursor to the Configuration's
optional starting offset. -/
def startAtW (cfg : Config) (w : WS) : WS :=
  match cfg.startOffset with
  | some o => { w with pos := o }
  | none => w

/-- Modelled from the spec: the write entry point: apply the Configuration's
optional starting offset, then dispatch on the descriptor; the active
variant of a tagged union is selected from the runtime value's own
discriminant, with no trial and error. -/
def writeType (cfg : Config) (td : TypeDescriptor) (v : Value) (w : WS) : Except Err WS :=
  match td with
  | .structD sd =>
    match v with
    | .vseq record =>
      writeBody cfg sd.typeEndian none sd.magicBytes sd.fields record (startAtW cfg w)
    | _ => .error (.contractViolation "value shape mismatch")
  | .enumD ed =>
    match v with
    | .vtag i vv =>
      match ed.variants[i]?, vv with
      | some vd, .vseq record =>
        writeBody cfg ed.typeEndian vd.variantEndian vd.magicBytes vd.fields record
          (startAtW cfg w)
      | _, _ => .error (.contractViolation "value shape mismatch")
    | _ => .error (.contractViolation "value shape mismatch")

/-! The write-prelude generator, embedded from
binrw_derive/src/codegen/write_options/prelude.rs.  Generated token streams
are modelled as statement lists; the quoted statements that matter here are
the import destructuring, the magic write (whose trailing question mark
operator propagates a failed underlying write), the endianness binding, and
opaque body statements that emit bytes. -/

/-- A statement of the generated write function, as emitted by the prelude
generator of prelude.rs. -/
inductive WStmt where
  | bindImports
  | writeMagic (bs : List Nat)
  | setEndian (e : CfgEndian)
  | bodyStmt (bs : List Nat)

/-- The PreludeGenerator state from prelude.rs: the token stream generated
so far, plus whether the input declares destructurable imports. -/
structure PreludeGenerator where
  out : List WStmt
  hasImports : Bool

/-- Embedded from prelude.rs, fn new. -/
def PreludeGenerator.new (out : List WStmt) (hasImports : Bool) : PreludeGenerator :=
  { out := out, hasImports := hasImports }

/-- Embedded from prelude.rs, fn prefix_imports: when the input has
destructurable imports, prepend the argument destructuring binding. -/
def PreludeGenerator.prefixImports (g : PreludeGenerator) : PreludeGenerator :=
  if g.hasImports then { g with out := .bindImports :: g.out } else g

/-- Embedded from prelude.rs, fn prefix_magic: when a magic value is
declared, prepend (before all previously generated output) the statement
that writes the magic's canonical bytes and propagates a write failure with
the question mark operator; otherwise leave the output unchanged. -/
def PreludeGenerator.prefixMagic (g : PreludeGenerator) (magic : Option (List Nat)) :
    PreludeGenerator :=
  match magic with
  | some m => { g with out := .writeMagic m :: g.out }
  | none => g

/-- Embedded from prelude.rs, fn prefix_endian: prepend the binding of the
resolved endianness. -/
def PreludeGenerator.prefixEndian (g : PreludeGenerator) (e : CfgEndian) : PreludeGenerator :=
  { g with out := .setEndian e :: g.out }

/-- Embedded from prelude.rs, fn finish. -/
def PreludeGenerator.finish (g : PreludeGenerator) : List WStmt := g.out

/-- A fallible byte sink for interpreting generated write statements: the
capacity models an underlying writer that can fail partway (an I/O error
such as a full device). -/
structure WChan where
  written : List Nat
  cap : Nat

/-- Write bytes to the fallible sink, failing with Io when the underlying
writer cannot take them. -/
def wchanWrite (bs : List Nat) (c : WChan) : Except Err WChan :=
  if c.written.length + bs.length ≤ c.cap then .ok { c with written := c.written ++ bs }
  else .error .io

/-- Interpretation of a generated statement list against the fallible sink:
a failed magic or body write propagates its error, as the generated
question mark operator does. -/
def runStmts : List WStmt → WChan → Except Err WChan
  | [], c => .ok c
  | .bindImports :: rest, c => runStmts rest c
  | .setEndian _ :: rest, c => runStmts rest c
  | .writeMagic bs :: rest, c =>
    match wchanWrite bs c with
    | .ok c1 => runStmts rest c1
    | .error er => .error er
  | .bodyStmt bs :: rest, c =>
    match wchanWrite bs c with
    | .ok c1 => runStmts rest c1
    | .error er => .error er

/-! Concrete descriptors used by the testable properties of the spec, and
the structural predicates the claims quantify over. -/

/-- A big-endian Configuration on a little-endian host, no arguments. -/
def cfgBig : Config := { endianness := .big, nativeOrd := .little }

/-- The try example of the spec: a single try-wrapped 4-byte field. -/
def tryU32Desc : TypeDescriptor :=
  .structD { fields := [{ width := 4, tryFlag := true }] }

/-- The magic example of the spec: type-level magic TEST then one
big-endian 4-byte field. -/
def testMagicDesc : TypeDescriptor :=
  .structD { typeEndian := some .big, magicBytes := some [84, 69, 83, 84],
             fields := [{ width := 4 }] }

/-- The assert example of the spec: the directive comparing the two fields
and carrying the custom payload pair. -/
def someValAssert : AssertDirective :=
  { condE := .gtE (.field 0) (.field 1), msg := "some_val > some_smaller_val",
    payload := some (.pairE (.field 0) (.field 1)) }

/-- The assert example of the spec: two big-endian 4-byte fields with the
assertion and custom payload. -/
def assertDesc : TypeDescriptor :=
  .structD { typeEndian := some .big, fields := [{ width := 4 }, { width := 4 }],
             asserts := [someValAssert] }

/-- The count example of the spec: a big-endian 4-byte length followed by
that many single bytes. -/
def countDesc : TypeDescriptor :=
  .structD { typeEndian := some .big,
             fields := [{ width := 4 }, { width := 1, countExpr := some (.field 0) }] }

/-- A counted field whose count expression is the constant minus one. -/
def negCountDesc : TypeDescriptor :=
  .structD { fields := [{ width := 1, countExpr := some (.const (-1)) }] }

/-- Deferred postprocessing referencing a later sibling: field 0 carries a
deferred hook reading field 1. -/
def deferHookDesc : TypeDescriptor :=
  .structD { fields := [{ width := 1, postTiming := .deferredLater,
                          postHook := some (.field 1) }, { width := 1 }] }

/-- The same scope with the hook scheduled inline instead. -/
def inlineHookDesc : TypeDescriptor :=
  .structD { fields := [{ width := 1, postTiming := .inlineNow,
                          postHook := some (.field 1) }, { width := 1 }] }

/-- A single byte field preceded by one padding byte: its pad filler is the
canonical deterministic zero. -/
def padByteDesc : TypeDescriptor :=
  .structD { fields := [{ width := 1, padBefore := some 1 }] }

/-- Three variants, each magic-discriminated, for the collect-all error
aggregation property. -/
def threeVariantEnum : EnumDesc :=
  { mode := .collectAll,
    variants := [
      { magicBytes := some [1], fields := [{ width := 1 }] },
      { magicBytes := some [2], fields := [{ width := 1 }] },
      { magicBytes := some [3], fields := [{ width := 1 }] }] }

/-- Encode an optional unconditional field-level override. -/
def ovOfOpt : Option ByteOrd → EndianOverride
  | some e => .uncond e
  | none => .noOv

/-- The byte order a Configuration resolves to on its own: its own
endianness, or the native default when it says native. -/
def cfgDefaultOrd (cfg : Config) : ByteOrd :=
  match cfg.endianness with
  | .big => .big
  | .little => .little
  | .native => cfg.nativeOrd

/-- The error of a failed computation (meaningless on success). -/
def errOf {α : Type} : Except Err α → Err
  | .error er => er
  | .ok _ => .contractViolation "not an error"

/-- A field with no mapping, no calc, and no padding or alignment
directives: nothing that could make the byte image unreproducible. -/
def FieldPlain (fd : FieldDirective) : Prop :=
  fd.mapFn = none ∧ fd.calcExpr = none ∧ fd.padBefore = none ∧
  fd.alignBefore = none ∧ fd.padAfter = none ∧ fd.alignAfter = none

/-- All fields of a descriptor are plain in the above sense. -/
def NoLossyTd : TypeDescriptor → Prop
  | .structD sd => ∀ fd ∈ sd.fields, FieldPlain fd
  | .enumD ed => ∀ v ∈ ed.variants, ∀ fd ∈ v.fields, FieldPlain fd

/-- A genuine byte sequence: every entry below 256. -/
def ValidBytes (bs : List Nat) : Prop := ∀ b ∈ bs, b < 256

/-- Pointwise extension of materialization: every slot already materialized
on the left is materialized to the same value on the right. -/
def valsLe (a b : List (Option Value)) : Prop :=
  ∀ (i : Nat) (v : Value), a[i]? = some (some v) → b[i]? = some (some v)

/-- One list is the other's initial segment. -/
def PrefList (a b : List Nat) : Prop := a = b.take a.length

/-- The writer-against-reader invariant of the round-trip argument: the
sink's cursor tracks the reader position, never hangs past the written
data, and everything written so far is an initial segment of the bytes the
reader consumed from. -/
def WInv (bytes : List Nat) (rpos : Nat) (w : WS) : Prop :=
  w.pos = rpos ∧ w.pos ≤ w.data.length ∧ PrefList w.data bytes

/-! Theorems. -/

/-- C2: for every combination of endianness override placements, the
resolved byte order of a field follows the total, deterministic precedence
order field-level over variant-level over type-level over the inherited
Configuration over the native default; a guarded field override applies
exactly when its guard holds, and otherwise resolution falls through to the
same chain.  The resolver runs once per field and its output is a pure
value, immutable for the field's duration. -/
theorem claim_c2_byteorder_precedence :
    (∀ (cfg : Config) (tE vE fE : Option ByteOrd) (vals : List (Option Value)),
      resolveEndian cfg tE vE (ovOfOpt fE) vals =
        .ok (fE.getD (vE.getD (tE.getD (cfgDefaultOrd cfg))))) ∧
    (∀ (cfg : Config) (tE vE : Option ByteOrd) (e : ByteOrd) (g : Expr)
        (vals : List (Option Value)),
      evalCondE cfg.args vals g = .ok true →
        resolveEndian cfg tE vE (.guarded e g) vals = .ok e) ∧
    (∀ (cfg : Config) (tE vE : Option ByteOrd) (e : ByteOrd) (g : Expr)
        (vals : List (Option Value)),
      evalCondE cfg.args vals g = .ok false →
        resolveEndian cfg tE vE (.guarded e g) vals =
          .ok (vE.getD (tE.getD (cfgDefaultOrd cfg)))) := by
  refine ⟨?_, ?_, ?_⟩
  · intro cfg tE vE fE vals
    cases fE <;> cases vE <;> cases tE <;>
      simp [resolveEndian, ovOfOpt, resolveUpper, cfgDefaultOrd]
  · intro cfg tE vE e g vals hg
    simp [resolveEndian, hg]
  · intro cfg tE vE e g vals hg
    cases vE <;> cases tE <;>
      simp [resolveEndian, hg, resolveUpper, cfgDefaultOrd]

/-- Witness for C2 at concrete placements: a true guard wins over the type
level, a false guard falls through to it, and with no overrides the
Configuration decides. -/
theorem claim_c2_witness :
    resolveEndian cfgBig (some .big) none (.guarded .little (.const 1)) [] = .ok .little ∧
    resolveEndian cfgBig (some .big) none (.guarded .little (.const 0)) [] = .ok .big ∧
    resolveEndian cfgBig none none (ovOfOpt none) [] = .ok .big := by
  refine ⟨claim_c2_byteorder_precedence.2.1 cfgBig (some .big) none .little (.const 1) []
      (by rfl),
    claim_c2_byteorder_precedence.2.2 cfgBig (some .big) none .little (.const 0) []
      (by rfl),
    claim_c2_byteorder_precedence.1 cfgBig none none none []⟩

/-- C9: parsing an empty byte stream against a type whose single field is a
try-wrapped 4-byte integer returns successfully with the absent value
stored for the field, and the cursor back at the start, not an error. -/
theorem claim_c9_try_empty_stream :
    readType cfgBig tryU32Desc { data := [], pos := 0 } =
      .ok ((.vseq [.absent], [none]), { data := [], pos := 0 }) := rfl

/-- C10: prefix_magic, when a type-level magic is declared, emits the write
of the magic's canonical bytes before all previously generated output, so
under the statement semantics the magic is written first and a failure of
the underlying write propagates as the error of the whole generated
function; with no magic declared the generator is left unchanged. -/
theorem claim_c10_prefix_magic :
    (∀ (g : PreludeGenerator) (m : List Nat),
      (g.prefixMagic (some m)).out = .writeMagic m :: g.out) ∧
    (∀ (g : PreludeGenerator), g.prefixMagic none = g) ∧
    (∀ (g : PreludeGenerator) (m : List Nat) (c c1 : WChan),
      wchanWrite m c = .ok c1 →
        runStmts (g.prefixMagic (some m)).out c = runStmts g.out c1) ∧
    (∀ (g : PreludeGenerator) (m : List Nat) (c : WChan) (er : Err),
      wchanWrite m c = .error er →
        runStmts (g.prefixMagic (some m)).out c = .error er) := by
  refine ⟨fun g m => rfl, fun g => rfl, ?_, ?_⟩
  · intro g m c c1 h
    simp [PreludeGenerator.prefixMagic, runStmts, h]
  · intro g m c er h
    simp [PreludeGenerator.prefixMagic, runStmts, h]

/-- Witness for C10: a concrete generator whose magic write succeeds on a
sink with room (the magic bytes precede the body bytes) and fails on a full
sink (the error comes back). -/
theorem claim_c10_witness :
    runStmts ((PreludeGenerator.new [.bodyStmt [7]] false).prefixMagic (some [1, 2])).out
      { written := [], cap := 3 } = .ok { written := [1, 2, 7], cap := 3 } ∧
    runStmts ((PreludeGenerator.new [.bodyStmt [7]] false).prefixMagic (some [1, 2])).out
      { written := [], cap := 1 } = .error .io := by
  constructor
  · have h := claim_c10_prefix_magic.2.2.1 (PreludeGenerator.new [.bodyStmt [7]] false)
      [1, 2] { written := [], cap := 3 } { written := [1, 2], cap := 3 } (by rfl)
    rw [h]; rfl
  · exact claim_c10_prefix_magic.2.2.2 (PreludeGenerator.new [.bodyStmt [7]] false)
      [1, 2] { written := [], cap := 1 } .io (by rfl)

/-- C6, counterexample to the claim as stated: the empty byte stream does
not start with TEST, yet parsing it fails with Io (the magic read hits the
end of the stream, an underlying stream failure), not with BadMagic at
position 0. -/
theorem claim_c6_counterexample :
    readType cfgBig testMagicDesc { data := [], pos := 0 } = .error .io ∧
    Err.io ≠ Err.badMagic 0 := ⟨rfl, fun h => Err.noConfusion h⟩

/-- C6 as amended: reading TEST followed by the big-endian bytes of 1
yields the value 1, and any byte stream long enough for the magic that does
not start with TEST fails with BadMagic carrying position 0 (streams too
short for the magic fail with Io instead). -/
theorem claim_c6_magic_check :
    (readType cfgBig testMagicDesc { data := [84, 69, 83, 84, 0, 0, 0, 1], pos := 0 } =
      .ok ((.vseq [.vint 1], [none]),
        { data := [84, 69, 83, 84, 0, 0, 0, 1], pos := 8 })) ∧
    (∀ bytes : List Nat, 4 ≤ bytes.length → bytes.take 4 ≠ [84, 69, 83, 84] →
      readType cfgBig testMagicDesc { data := bytes, pos := 0 } = .error (.badMagic 0)) := by
  constructor
  · rfl
  · intro bytes h4 hne
    have hle : 0 + 4 ≤ bytes.length := by omega
    simp [readType, cfgBig, testMagicDesc, readStructD, readBody, readMagicOpt,
      readMagic, rReadBytes, startAtR, hle, hne]

/-- Witness for C6 at a concrete non-TEST stream of four bytes. -/
theorem claim_c6_witness :
    readType cfgBig testMagicDesc { data := [9, 9, 9, 9], pos := 0 } =
      .error (.badMagic 0) :=
  claim_c6_magic_check.2 [9, 9, 9, 9] (by decide) (by decide)

/-- C7: parsing the two big-endian fields 1 and 255 against the assertion
that the first exceeds the second fails with AssertFail at position 8
carrying the custom payload pair (1, 255); and in general asserts run in
declared order over the fully parsed scope, halting at the first failing
one, whose failure is produced. -/
theorem claim_c7_assert_payload :
    (readType cfgBig assertDesc { data := [0, 0, 0, 1, 0, 0, 0, 255], pos := 0 } =
      .error (.assertFail 8 "some_val > some_smaller_val"
        (some (.vseq [.vint 1, .vint 255])))) ∧
    (∀ (args : List Value) (vals : List (Option Value)) (pos : Nat)
        (pre post : List AssertDirective) (a : AssertDirective),
      (∀ b ∈ pre, evalCondE args vals b.condE = .ok true) →
      evalCondE args vals a.condE = .ok false →
      runAsserts args vals pos (pre ++ a :: post) =
        .error (assertFailure args vals pos a)) := by
  constructor
  · rfl
  · intro args vals pos pre post a
    induction pre with
    | nil =>
      intro _ hfail
      simp [runAsserts, hfail]
    | cons b rest ih =>
      intro hpre hfail
      have hb : evalCondE args vals b.condE = .ok true := hpre b (List.mem_cons_self _ _)
      have hstep := ih (fun x hx => hpre x (List.mem_cons_of_mem _ hx)) hfail
      simp [runAsserts, hb, hstep]

/-- Witness for C7 applying the first-failure property to the concrete
assert directive over the parsed values 1 and 255. -/
theorem claim_c7_witness :
    runAsserts cfgBig.args [some (.vint 1), some (.vint 255)] 8
        ([] ++ someValAssert :: []) =
      .error (.assertFail 8 "some_val > some_smaller_val"
        (some (.vseq [.vint 1, .vint 255]))) := by
  have h := claim_c7_assert_payload.2 cfgBig.args [some (.vint 1), some (.vint 255)] 8
    [] [] someValAssert (fun b hb => absurd hb (List.not_mem_nil b)) (by rfl)
  rw [h]; rfl

/-- The deferred registry preserves the length of the posts list. -/
theorem runDeferred_length (args : List Value) (vals : List (Option Value)) :
    ∀ (defs : List (Nat × Expr)) (posts posts1 : List (Option Value)),
      runDeferred args vals defs posts = .ok posts1 → posts1.length = posts.length := by
  intro defs
  induction defs with
  | nil =>
    intro posts posts1 h
    cases h
    rfl
  | cons p rest ih =>
    intro posts posts1 h
    unfold runDeferred at h
    cases hev : evalExpr args vals p.2 with
    | ok v =>
      rw [hev] at h
      have := ih (posts.set p.1 (some v)) posts1 h
      simpa using this
    | error er => rw [hev] at h; cases h

/-- The deferred registry does not touch post slots of fields it holds no
entry for. -/
theorem runDeferred_untouched (args : List Value) (vals : List (Option Value)) :
    ∀ (defs : List (Nat × Expr)) (posts posts1 : List (Option Value)) (j : Nat),
      runDeferred args vals defs posts = .ok posts1 →
      (∀ p ∈ defs, p.1 ≠ j) → posts1[j]? = posts[j]? := by
  intro defs
  induction defs with
  | nil =>
    intro posts posts1 j h _
    cases h
    rfl
  | cons p rest ih =>
    intro posts posts1 j h hni
    unfold runDeferred at h
    cases hev : evalExpr args vals p.2 with
    | ok v =>
      rw [hev] at h
      have h1 := ih (posts.set p.1 (some v)) posts1 j h
        (fun q hq => hni q (List.mem_cons_of_mem _ hq))
      rw [h1]
      exact List.getElem?_set_ne (hni p (List.mem_cons_self _ _))
    | error er => rw [hev] at h; cases h

/-- C4: the deferred-timing hook of field 0, referencing the later sibling
field 1, resolves correctly after the inline phase (the post slot holds the
later sibling's value); the equivalent inline hook is rejected as an
ordering violation; and in general every hook handed to the
Deferred-Postprocess Registry is evaluated against the one complete sibling
state the registry receives — which readBody passes only after every inline
field of the scope has completed — with its result stored in that field's
post slot, registry entries being processed in declaration order. -/
theorem claim_c4_deferred_postprocess :
    (readType cfgBig deferHookDesc { data := [10, 20], pos := 0 } =
      .ok ((.vseq [.vint 10, .vint 20], [some (.vint 20), none]),
        { data := [10, 20], pos := 2 })) ∧
    (readType cfgBig inlineHookDesc { data := [10, 20], pos := 0 } =
      .error (.contractViolation "reference to a field that is not yet materialized")) ∧
    (∀ (args : List Value) (vals : List (Option Value)) (defs : List (Nat × Expr))
        (posts posts1 : List (Option Value)),
      (defs.map Prod.fst).Nodup →
      (∀ p ∈ defs, p.1 < posts.length) →
      runDeferred args vals defs posts = .ok posts1 →
      ∀ (i : Nat) (h : Expr), (i, h) ∈ defs →
        ∃ v, evalExpr args vals h = .ok v ∧ posts1[i]? = some (some v)) := by
  refine ⟨rfl, rfl, ?_⟩
  intro args vals defs
  induction defs with
  | nil =>
    intro posts posts1 _ _ _ i h hmem
    exact absurd hmem (List.not_mem_nil _)
  | cons p rest ih =>
    intro posts posts1 hnd hlt hrun i h hmem
    unfold runDeferred at hrun
    cases hev : evalExpr args vals p.2 with
    | error er => rw [hev] at hrun; cases hrun
    | ok v =>
      rw [hev] at hrun
      rcases List.mem_cons.mp hmem with hhead | htail
      · subst hhead
        refine ⟨v, hev, ?_⟩
        have hni : ∀ q ∈ rest, q.1 ≠ i := by
          intro q hq hqi
          exact (List.nodup_cons.mp hnd).1 (List.mem_map.mpr ⟨q, hq, hqi⟩)
        have h1 := runDeferred_untouched args vals rest (posts.set i (some v)) posts1 i
          hrun hni
        rw [h1]
        exact List.getElem?_set_self (hlt (i, h) (List.mem_cons_self _ _))
      · exact ih (posts.set p.1 (some v)) posts1 (List.nodup_cons.mp hnd).2
          (fun q hq => by
            have := hlt q (List.mem_cons_of_mem _ hq)
            simpa using this)
          hrun i h htail

/-- Witness for C4's registry property at a concrete registry: one entry
for field 0 reading the complete state of field 1. -/
theorem claim_c4_witness :
    ∃ v, evalExpr cfgBig.args [some (.vint 10), some (.vint 20)] (.field 1) = .ok v ∧
      ([some (.vint 20), none] : List (Option Value))[0]? = some (some v) :=
  claim_c4_deferred_postprocess.2.2 cfgBig.args [some (.vint 10), some (.vint 20)]
    [(0, .field 1)] [none, none] [some (.vint 20), none] (by simp)
    (by intro p hp; simp at hp; rw [hp]; decide) (by rfl) 0 (.field 1) (by simp)

/-- Reading n bytes successfully yields the slice at the cursor, leaves the
data unchanged, advances the position by n, and implies the bytes were
available. -/
theorem rReadBytes_ok (n : Nat) (s : RS) (bs : List Nat) (s1 : RS)
    (h : rReadBytes n s = .ok (bs, s1)) :
    bs = (s.data.drop s.pos).take n ∧ s1.data = s.data ∧ s1.pos = s.pos + n ∧
      s.pos + n ≤ s.data.length ∧ bs.length = n := by
  unfold rReadBytes at h
  by_cases hle : s.pos + n ≤ s.data.length
  · rw [if_pos hle] at h
    cases h
    refine ⟨rfl, rfl, rfl, hle, ?_⟩
    simp [List.length_take, List.length_drop]
    omega
  · rw [if_neg hle] at h
    cases h

/-- Padding and alignment on the read side never change the underlying
data. -/
theorem applyPreR_data (fd : FieldDirective) (s : RS) :
    (applyPreR fd s).data = s.data := by
  unfold applyPreR applyOptPadR applyOptAlignR
  cases fd.padBefore <;> cases fd.alignBefore <;> rfl

/-- A successful magic check leaves the underlying data unchanged. -/
theorem readMagicOpt_data (m : Option (List Nat)) (s s2 : RS)
    (h : readMagicOpt m s = .ok s2) : s2.data = s.data := by
  cases m with
  | none => cases h; rfl
  | some mm =>
    simp only [readMagicOpt] at h
    unfold readMagic at h
    cases hr : rReadBytes mm.length s with
    | ok pr =>
      obtain ⟨bs, s1⟩ := pr
      simp only [hr] at h
      by_cases heq : bs = mm
      · rw [if_pos heq] at h
        cases h
        exact (rReadBytes_ok mm.length s bs _ hr).2.1
      · rw [if_neg heq] at h
        cases h
    | error er =>
      simp only [hr] at h
      cases h

/-- C1: for every field carrying the try flag whose pre-try steps pass
(resolved byte order, a condition that is absent or holds, a successful
magic check), if the remaining pipeline steps fail with any error, the
field read still succeeds: the cursor is rewound to the pre-padding
position recorded at step 1, the absent value is stored, nothing is
scheduled, and the error is swallowed, never propagated. -/
theorem claim_c1_try_rewind :
    ∀ (cfg : Config) (tO vO : Option ByteOrd) (idx : Nat)
      (vals : List (Option Value)) (fd : FieldDirective) (s : RS) (e : ByteOrd)
      (s2 : RS) (er : Err),
      fd.tryFlag = true →
      resolveEndian cfg tO vO fd.endianOverride vals = .ok e →
      (fd.condExpr = none ∨
        ∃ c, fd.condExpr = some c ∧ evalCondE cfg.args vals c = .ok true) →
      readMagicOpt fd.magicBytes (applyPreR fd s) = .ok s2 →
      readFieldBody cfg idx vals fd e s2 = .error er →
      readField cfg tO vO idx vals fd s =
        .ok (.absent, none, none, { data := s.data, pos := s.pos }) := by
  intro cfg tO vO idx vals fd s e s2 er htry hres hcond hmagic hbody
  have hdata : s2.data = s.data := by
    rw [readMagicOpt_data fd.magicBytes (applyPreR fd s) s2 hmagic, applyPreR_data]
  have hafter : readFieldAfterCond cfg idx vals fd e s.pos (applyPreR fd s) =
      .ok (.absent, none, none, { data := s.data, pos := s.pos }) := by
    unfold readFieldAfterCond
    rw [hmagic, htry]
    simp only [if_true, hbody]
    rw [show ({ s2 with pos := s.pos } : RS) = { data := s.data, pos := s.pos } by
      rw [← hdata]]
  rcases hcond with hc | ⟨c, hc, hcv⟩
  · simp only [readField, hres, hc]
    exact hafter
  · simp only [readField, hres, hc, hcv]
    exact hafter

/-- Witness for C1: the try-wrapped 4-byte field against the empty stream:
the body fails with Io, the field read returns the absent value with the
cursor back at position 0. -/
theorem claim_c1_witness :
    readField cfgBig none none 0 [none] { width := 4, tryFlag := true }
      { data := [], pos := 0 } =
      .ok (.absent, none, none, { data := [], pos := 0 }) :=
  claim_c1_try_rewind cfgBig none none 0 [none] { width := 4, tryFlag := true }
    { data := [], pos := 0 } .big { data := [], pos := 0 } .io rfl rfl (Or.inl rfl)
    rfl rfl

/-- In collect-all mode, when every remaining variant trial fails, the
aggregation appends each variant's error, in declaration order, to the
accumulator. -/
theorem readVariantsAux_allfail (cfg : Config) (tO : Option ByteOrd) (s : RS) :
    ∀ (vs : List VariantDesc) (idx : Nat) (acc : List Err),
      (∀ v ∈ vs, ∃ er, readVariant cfg tO v s = .error er) →
      readVariantsAux cfg tO .collectAll s vs idx acc =
        .error (.enumErrors (acc ++ vs.map (fun v => errOf (readVariant cfg tO v s)))) := by
  intro vs
  induction vs with
  | nil =>
    intro idx acc _
    simp [readVariantsAux]
  | cons v rest ih =>
    intro idx acc hfail
    cases hr : readVariant cfg tO v s with
    | ok res =>
      obtain ⟨er, her⟩ := hfail v (List.mem_cons_self _ _)
      rw [her] at hr
      cases hr
    | error er =>
      simp only [readVariantsAux, hr]
      rw [ih (idx + 1) (acc ++ [er]) (fun w hw => hfail w (List.mem_cons_of_mem _ hw))]
      simp [errOf, hr]

/-- A successful variant trial, preceded only by failing trials, decides
the whole selection with the tag of its declaration index; the cursor for
every trial is the same pre-attempt one. -/
theorem readVariantsAux_success (cfg : Config) (tO : Option ByteOrd)
    (mode : VariantMode) (s : RS) :
    ∀ (vs : List VariantDesc) (idx : Nat) (acc : List Err) (i : Nat)
      (v : VariantDesc) (val : Value) (posts : List (Option Value)) (s1 : RS),
      vs[i]? = some v →
      (∀ (j : Nat) (w : VariantDesc), j < i → vs[j]? = some w →
        ∃ er, readVariant cfg tO w s = .error er) →
      readVariant cfg tO v s = .ok ((val, posts), s1) →
      readVariantsAux cfg tO mode s vs idx acc = .ok ((.vtag (idx + i) val, posts), s1) := by
  intro vs
  induction vs with
  | nil =>
    intro idx acc i v val posts s1 hi
    simp at hi
  | cons w rest ih =>
    intro idx acc i v val posts s1 hi hprev hok
    cases i with
    | zero =>
      simp at hi
      subst hi
      simp [readVariantsAux, hok]
    | succ i0 =>
      obtain ⟨er, her⟩ := hprev 0 w (Nat.succ_pos _) (by simp)
      simp only [readVariantsAux, her]
      have hstep := ih (idx + 1) (acc ++ [er]) i0 v val posts s1 (by simpa using hi)
        (fun j u hj hu => hprev (j + 1) u (by omega) (by simpa using hu)) hok
      rw [hstep]
      have harith : idx + 1 + i0 = idx + (i0 + 1) := by omega
      rw [harith]

/-- C5: for a tagged-union type in collect-all mode whose variants all fail,
the result is an EnumErrors aggregate holding exactly one error per
declared variant, aligned to declaration order (the i-th entry is the error
of the i-th variant's trial); and a successful variant still
short-circuits: preceded only by failures, it decides the selection. -/
theorem claim_c5_collect_all :
    (∀ (cfg : Config) (ed : EnumDesc) (s : RS),
      ed.mode = .collectAll →
      (∀ v ∈ ed.variants, ∃ er, readVariant cfg ed.typeEndian v s = .error er) →
      readEnumD cfg ed s =
        .error (.enumErrors (ed.variants.map
          (fun v => errOf (readVariant cfg ed.typeEndian v s)))) ∧
      (ed.variants.map (fun v => errOf (readVariant cfg ed.typeEndian v s))).length =
        ed.variants.length ∧
      (∀ (i : Nat) (vd : VariantDesc), ed.variants[i]? = some vd →
        (ed.variants.map (fun v => errOf (readVariant cfg ed.typeEndian v s)))[i]? =
          some (errOf (readVariant cfg ed.typeEndian vd s)))) ∧
    (∀ (cfg : Config) (ed : EnumDesc) (s : RS) (i : Nat) (v : VariantDesc)
        (val : Value) (posts : List (Option Value)) (s1 : RS),
      ed.variants[i]? = some v →
      (∀ (j : Nat) (w : VariantDesc), j < i → ed.variants[j]? = some w →
        ∃ er, readVariant cfg ed.typeEndian w s = .error er) →
      readVariant cfg ed.typeEndian v s = .ok ((val, posts), s1) →
      readEnumD cfg ed s = .ok ((.vtag i val, posts), s1)) := by
  constructor
  · intro cfg ed s hmode hfail
    refine ⟨?_, by simp, ?_⟩
    · unfold readEnumD
      rw [hmode]
      have h := readVariantsAux_allfail cfg ed.typeEndian s ed.variants 0 [] hfail
      rw [h]
      simp
    · intro i vd hi
      rw [List.getElem?_map, hi]
      rfl
  · intro cfg ed s i v val posts s1 hi hprev hok
    unfold readEnumD
    have h := readVariantsAux_success cfg ed.typeEndian ed.mode s ed.variants 0 [] i v
      val posts s1 hi hprev hok
    rw [h]
    simp

/-- Witness for C5: the three magic-discriminated variants against a stream
matching none of them: three BadMagic errors in declaration order; and
against a stream matching the second variant: the tagged success of index
one. -/
theorem claim_c5_witness :
    readEnumD cfgBig threeVariantEnum { data := [9, 9], pos := 0 } =
      .error (.enumErrors [.badMagic 0, .badMagic 0, .badMagic 0]) ∧
    readEnumD cfgBig threeVariantEnum { data := [2, 7], pos := 0 } =
      .ok ((.vtag 1 (.vseq [.vint 7]), [none]), { data := [2, 7], pos := 2 }) := by
  constructor
  · have h := (claim_c5_collect_all.1 cfgBig threeVariantEnum { data := [9, 9], pos := 0 }
      rfl ?hf).1
    · rw [h]
      rfl
    case hf =>
      intro v hv
      fin_cases hv <;> exact ⟨.badMagic 0, rfl⟩
  · exact claim_c5_collect_all.2 cfgBig threeVariantEnum { data := [2, 7], pos := 0 } 1
      { magicBytes := some [2], fields := [{ width := 1 }] } (.vseq [.vint 7]) [none]
      { data := [2, 7], pos := 2 } (by rfl)
      (by
        intro j w hj hw
        interval_cases j
        · exact ⟨.badMagic 0, by cases hw; rfl⟩)
      (by rfl)

/-- Repeating a single-byte element parse more times than the stream has
bytes left fails with Io. -/
theorem readElems_fail (e : ByteOrd) :
    ∀ (n : Nat) (s : RS), s.pos ≤ s.data.length → s.data.length < s.pos + n →
      readElems e 1 n s = .error .io := by
  intro n
  induction n with
  | zero =>
    intro s h1 h2
    omega
  | succ n0 ih =>
    intro s h1 h2
    by_cases hle : s.pos + 1 ≤ s.data.length
    · have hrec := ih { s with pos := s.pos + 1 } (by simpa using hle) (by simp; omega)
      simp only [readElems, rReadBytes, if_pos hle, hrec]
    · simp only [readElems, rReadBytes, if_neg hle]

/-- Characterization of the field pipeline on a bare fixed-width field: it
is exactly the fixed-width read decoded with the resolved byte order. -/
theorem readField_uint (cfg : Config) (tO vO : Option ByteOrd) (idx : Nat)
    (vals : List (Option Value)) (w : Nat) (s : RS) :
    readField cfg tO vO idx vals { width := w } s =
      match rReadBytes w s with
      | .ok (bs, s1) => .ok (.vint (bytesToInt (resolveUpper cfg tO vO) bs), none, none, s1)
      | .error er => .error er := by
  cases hr : rReadBytes w s with
  | ok pr =>
    obtain ⟨bs, s1⟩ := pr
    simp [readField, readFieldAfterCond, readFieldBody, produceValue, readMagicOpt,
      resolveEndian, applyPreR, applyOptPadR, applyOptAlignR, applyPostR, restoreIf,
      mapApply, hr]
  | error er =>
    simp [readField, readFieldAfterCond, readFieldBody, produceValue, readMagicOpt,
      resolveEndian, applyPreR, applyOptPadR, applyOptAlignR, applyPostR, restoreIf, hr]

/-- C8: a count field repeats the element parse exactly N times into an
ordered sequence: the big-endian length 4 followed by bytes 1,2,3,4 yields
the sequence 1,2,3,4; a negative count surfaces Io; and any declared count
exceeding the bytes available surfaces Io — the interpreter is a total
function, so no input can abort or crash the process. -/
theorem claim_c8_count :
    (readType cfgBig countDesc { data := [0, 0, 0, 4, 1, 2, 3, 4], pos := 0 } =
      .ok ((.vseq [.vint 4, .vseq [.vint 1, .vint 2, .vint 3, .vint 4]], [none, none]),
        { data := [0, 0, 0, 4, 1, 2, 3, 4], pos := 8 })) ∧
    (readType cfgBig negCountDesc { data := [], pos := 0 } = .error .io) ∧
    (∀ bytes : List Nat, 4 ≤ bytes.length →
      bytes.length < 4 + bytesToNatBE (bytes.take 4) →
      readType cfgBig countDesc { data := bytes, pos := 0 } = .error .io) := by
  refine ⟨rfl, rfl, ?_⟩
  intro bytes h4 hn
  have hle : 0 + 4 ≤ bytes.length := by omega
  have h0 : rReadBytes 4 { data := bytes, pos := 0 } =
      .ok (bytes.take 4, { data := bytes, pos := 0 + 4 }) := by
    unfold rReadBytes
    rw [if_pos hle]
    simp
  have hElems : readElems .big 1 (bytesToNatBE (bytes.take 4))
      { data := bytes, pos := 4 } = .error .io := by
    apply readElems_fail
    · simpa using h4
    · simp
      omega
  have hstart : startAtR cfgBig { data := bytes, pos := 0 } =
      { data := bytes, pos := 0 } := rfl
  simp only [readType, hstart, countDesc, readStructD, readBody, readMagicOpt,
    List.length_cons, List.length_nil, List.replicate, readFieldsAux]
  rw [readField_uint cfgBig (some .big) none 0 [none, none] 4 { data := bytes, pos := 0 }]
  rw [h0]
  have hcount : readField cfgBig (some .big) none (0 + 1)
      ([none, none].set 0
        (some (.vint (bytesToInt (resolveUpper cfgBig (some .big) none) (bytes.take 4)))))
      { width := 1, countExpr := some (.field 0) } { data := bytes, pos := 0 + 4 } =
      .error .io := by
    have hnn : ¬((bytesToNatBE (bytes.take 4) : Int) < 0) := by simp
    simp [readField, resolveEndian, evalCondE, readFieldAfterCond, readMagicOpt,
      readFieldBody, produceValue, evalExpr, applyPreR, applyOptPadR, applyOptAlignR,
      resolveUpper, cfgBig, bytesToInt, hnn, hElems]
  simp only [hcount]

/-- Witness for C8: a declared count of 9 with only 4 element bytes left
surfaces Io. -/
theorem claim_c8_witness :
    readType cfgBig countDesc { data := [0, 0, 0, 9, 1, 2, 3, 4], pos := 0 } = .error .io :=
  claim_c8_count.2.2 [0, 0, 0, 9, 1, 2, 3, 4] (by decide) (by decide)

/-- Big-endian decode then encode at the original width is the identity on
genuine byte lists. -/
theorem natToBytesBE_bytesToNatBE :
    ∀ bs : List Nat, (∀ b ∈ bs, b < 256) →
      natToBytesBE bs.length (bytesToNatBE bs) = bs := by
  intro bs
  induction bs using List.reverseRecOn with
  | nil => intro _; rfl
  | append_singleton xs b ih =>
    intro hval
    have hb : b < 256 := hval b (by simp)
    have hxs : ∀ x ∈ xs, x < 256 := fun x hx => hval x (by simp [hx])
    have hfold : bytesToNatBE (xs ++ [b]) = bytesToNatBE xs * 256 + b := by
      simp [bytesToNatBE, List.foldl_append]
    have hlen : (xs ++ [b]).length = xs.length + 1 := by simp
    rw [hlen, hfold]
    show natToBytesBE xs.length ((bytesToNatBE xs * 256 + b) / 256) ++
        [(bytesToNatBE xs * 256 + b) % 256] = xs ++ [b]
    have hdiv : (bytesToNatBE xs * 256 + b) / 256 = bytesToNatBE xs := by
      omega
    have hmod : (bytesToNatBE xs * 256 + b) % 256 = b := by
      omega
    rw [hdiv, hmod, ih hxs]

/-- Decoding a genuine byte list with a byte order and re-encoding it at
its own width reproduces it exactly, for either byte order. -/
theorem intToBytes_bytesToInt (e : ByteOrd) (bs : List Nat)
    (hval : ∀ b ∈ bs, b < 256) :
    intToBytes e bs.length (bytesToInt e bs) = bs := by
  cases e with
  | big =>
    show natToBytesBE bs.length ((bytesToNatBE bs : Int)).toNat = bs
    rw [Int.toNat_natCast]
    exact natToBytesBE_bytesToNatBE bs hval
  | little =>
    show (natToBytesBE bs.length ((bytesToNatBE bs.reverse : Int)).toNat).reverse = bs
    rw [Int.toNat_natCast]
    have h := natToBytesBE_bytesToNatBE bs.reverse
      (fun b hb => hval b (List.mem_reverse.mp hb))
    rw [List.length_reverse] at h
    rw [h, List.reverse_reverse]

/-- Writing the byte the reader saw at the tracked position preserves the
round-trip invariant and advances both cursors together. -/
theorem wWriteByte_inv (bytes : List Nat) (p : Nat) (w : WS) (b : Nat)
    (hw : WInv bytes p w) (hb : bytes[p]? = some b) :
    WInv bytes (p + 1) (wWriteByte b w) := by
  obtain ⟨hp, hple, hpref⟩ := hw
  have hplen : p < bytes.length := (List.getElem?_eq_some_iff.mp hb).1
  have hdlen : w.data.length ≤ bytes.length := by
    have := congrArg List.length hpref
    simp [PrefList] at this
    omega
  unfold wWriteByte
  by_cases hlt : w.pos < w.data.length
  · rw [if_pos hlt]
    refine ⟨by simpa using hp, by simpa using Nat.succ_le_of_lt hlt, ?_⟩
    unfold PrefList at hpref ⊢
    simp only [List.length_set]
    have hentry : w.data[w.pos]? = some b := by
      rw [hpref]
      rw [List.getElem?_take_of_lt (by omega)]
      rw [hp]
      exact hb
    apply List.ext_getElem?
    intro n
    by_cases hn : n = w.pos
    · subst hn
      rw [List.getElem?_set_self (by omega)]
      rw [List.getElem?_take_of_lt (by omega), hp]
      exact hb.symm
    · rw [List.getElem?_set_ne (fun hcon => hn hcon.symm)]
      conv_lhs => rw [hpref]
  · rw [if_neg hlt]
    have heq : w.pos = w.data.length := by omega
    rw [if_pos heq]
    refine ⟨by simpa using hp, by simp; omega, ?_⟩
    unfold PrefList at hpref ⊢
    simp only [List.length_append, List.length_cons, List.length_nil]
    have hlast : bytes[w.data.length]? = some b := by
      rw [← heq, hp]
      exact hb
    rw [List.take_succ, hlast]
    conv_lhs => rw [hpref]
    rfl

/-- Writing the exact slice the reader consumed preserves the round-trip
invariant across the whole chunk. -/
theorem wWriteBytes_inv (bytes : List Nat) :
    ∀ (chunk : List Nat) (p : Nat) (w : WS),
      WInv bytes p w → p + chunk.length ≤ bytes.length →
      chunk = (bytes.drop p).take chunk.length →
      WInv bytes (p + chunk.length) (wWriteBytes chunk w) := by
  intro chunk
  induction chunk with
  | nil =>
    intro p w hw _ _
    simpa using hw
  | cons b rest ih =>
    intro p w hw hle hch
    have hplen : p < bytes.length := by simp at hle; omega
    have hdrop : bytes.drop p = bytes[p] :: bytes.drop (p + 1) :=
      List.drop_eq_getElem_cons hplen
    rw [hdrop] at hch
    simp only [List.length_cons, List.take_succ_cons] at hch
    have hb : b = bytes[p] := (List.cons.injEq _ _ _ _ ▸ hch).1
    have hrest : rest = (bytes.drop (p + 1)).take rest.length :=
      (List.cons.injEq _ _ _ _ ▸ hch).2
    have hstep : WInv bytes (p + 1) (wWriteByte b w) :=
      wWriteByte_inv bytes p w b hw
        (by rw [hb]; exact (List.getElem?_eq_getElem hplen))
    have := ih (p + 1) (wWriteByte b w) hstep (by simp at hle ⊢; omega) hrest
    show WInv bytes (p + (rest.length + 1)) (wWriteBytes rest (wWriteByte b w))
    have harith : p + (rest.length + 1) = p + 1 + rest.length := by omega
    rw [harith]
    exact this


theorem evalExpr_mono (args : List Value) (a b : List (Option Value)) (hab : valsLe a b) :
    ∀ (e : Expr) (v : Value), evalExpr args a e = .ok v → evalExpr args b e = .ok v := by
  intro e
  induction e with
  | const i => intro v h; exact h
  | arg i => intro v h; exact h
  | field i =>
    intro v h
    simp only [evalExpr] at h ⊢
    cases ha : a[i]? with
    | none =>
      simp only [ha] at h
      cases h
    | some ov =>
      cases ov with
      | none =>
        simp only [ha] at h
        cases h
      | some wv =>
        simp only [ha] at h
        cases h
        simp only [hab i v ha]
  | add a1 b1 iha ihb =>
    intro v h
    simp only [evalExpr] at h ⊢
    split at h
    case _ x y hx hy => rw [iha _ hx, ihb _ hy]; exact h
    case _ => cases h
    case _ => cases h
    case _ => cases h
  | sub a1 b1 iha ihb =>
    intro v h
    simp only [evalExpr] at h ⊢
    split at h
    case _ x y hx hy => rw [iha _ hx, ihb _ hy]; exact h
    case _ => cases h
    case _ => cases h
    case _ => cases h
  | mul a1 b1 iha ihb =>
    intro v h
    simp only [evalExpr] at h ⊢
    split at h
    case _ x y hx hy => rw [iha _ hx, ihb _ hy]; exact h
    case _ => cases h
    case _ => cases h
    case _ => cases h
  | gtE a1 b1 iha ihb =>
    intro v h
    simp only [evalExpr] at h ⊢
    split at h
    case _ x y hx hy => rw [iha _ hx, ihb _ hy]; exact h
    case _ => cases h
    case _ => cases h
    case _ => cases h
  | eqE a1 b1 iha ihb =>
    intro v h
    simp only [evalExpr] at h ⊢
    split at h
    case _ x y hx hy => rw [iha _ hx, ihb _ hy]; exact h
    case _ => cases h
    case _ => cases h
    case _ => cases h
  | pairE a1 b1 iha ihb =>
    intro v h
    simp only [evalExpr] at h ⊢
    split at h
    case _ x y hx hy => rw [iha _ hx, ihb _ hy]; exact h
    case _ => cases h
    case _ => cases h


theorem evalCondE_mono (args : List Value) (a b : List (Option Value)) (hab : valsLe a b)
    (e : Expr) (r : Bool) (h : evalCondE args a e = .ok r) : evalCondE args b e = .ok r := by
  unfold evalCondE at h ⊢
  cases hv : evalExpr args a e with
  | error er =>
    simp only [hv] at h
    cases h
  | ok v =>
    cases v with
    | vint i =>
      simp only [hv] at h
      simp only [evalExpr_mono args a b hab e _ hv]
      exact h
    | vseq vs =>
      simp only [hv] at h
      cases h
    | vtag j vv =>
      simp only [hv] at h
      cases h
    | absent =>
      simp only [hv] at h
      cases h

theorem resolveEndian_mono (cfg : Config) (tO vO : Option ByteOrd) (ov : EndianOverride)
    (a b : List (Option Value)) (hab : valsLe a b) (e : ByteOrd)
    (h : resolveEndian cfg tO vO ov a = .ok e) : resolveEndian cfg tO vO ov b = .ok e := by
  cases ov with
  | noOv => exact h
  | uncond e1 => exact h
  | guarded e1 g =>
    unfold resolveEndian at h ⊢
    cases hg : evalCondE cfg.args a g with
    | error er =>
      simp only [hg] at h
      cases h
    | ok r =>
      simp only [hg] at h
      simp only [evalCondE_mono cfg.args a b hab g r hg]
      cases r
      · exact h
      · exact h

theorem readElems_data (e : ByteOrd) (wd : Nat) :
    ∀ (n : Nat) (s : RS) (vs : List Value) (s1 : RS),
      readElems e wd n s = .ok (vs, s1) → s1.data = s.data := by
  intro n
  induction n with
  | zero =>
    intro s vs s1 h
    cases h
    rfl
  | succ n0 ih =>
    intro s vs s1 h
    simp only [readElems] at h
    cases hr : rReadBytes wd s with
    | error er =>
      simp only [hr] at h
      cases h
    | ok pr =>
      obtain ⟨bs, sm⟩ := pr
      simp only [hr] at h
      cases hrec : readElems e wd n0 sm with
      | error er =>
        simp only [hrec] at h
        cases h
      | ok pr2 =>
        obtain ⟨vs2, s2⟩ := pr2
        simp only [hrec] at h
        cases h
        rw [ih sm vs2 _ hrec]
        exact (rReadBytes_ok wd s bs sm hr).2.1

theorem produceValue_data (cfg : Config) (vals : List (Option Value)) (fd : FieldDirective)
    (e : ByteOrd) (s : RS) (v : Value) (s1 : RS)
    (h : produceValue cfg vals fd e s = .ok (v, s1)) : s1.data = s.data := by
  unfold produceValue at h
  by_cases hdf : fd.defaultFlag
  · rw [if_pos hdf] at h
    cases h
    rfl
  · rw [if_neg hdf] at h
    cases hc : fd.calcExpr with
    | some ce =>
      simp only [hc] at h
      cases hev : evalExpr cfg.args vals ce with
      | error er =>
        simp only [hev] at h
        cases h
      | ok vv =>
        simp only [hev] at h
        cases h
        rfl
    | none =>
      simp only [hc] at h
      cases hcnt : fd.countExpr with
      | some ce =>
        simp only [hcnt] at h
        cases hev : evalExpr cfg.args vals ce with
        | error er =>
          simp only [hev] at h
          cases h
        | ok vv =>
          cases vv with
          | vint n =>
            simp only [hev] at h
            by_cases hneg : n < 0
            · rw [if_pos hneg] at h
              cases h
            · rw [if_neg hneg] at h
              cases hel : readElems e fd.width n.toNat s with
              | error er =>
                simp only [hel] at h
                cases h
              | ok pr =>
                obtain ⟨vs, s2⟩ := pr
                simp only [hel] at h
                cases h
                exact readElems_data e fd.width n.toNat s vs _ hel
          | vseq vs =>
            simp only [hev] at h
            cases h
          | vtag j vv2 =>
            simp only [hev] at h
            cases h
          | absent =>
            simp only [hev] at h
            cases h
      | none =>
        simp only [hcnt] at h
        cases hr : rReadBytes fd.width s with
        | error er =>
          simp only [hr] at h
          cases h
        | ok pr =>
          obtain ⟨bs, s2⟩ := pr
          simp only [hr] at h
          cases h
          exact (rReadBytes_ok fd.width s bs _ hr).2.1

theorem applyPostR_data (fd : FieldDirective) (s : RS) : (applyPostR fd s).data = s.data := by
  unfold applyPostR applyOptPadR applyOptAlignR
  cases fd.padAfter <;> cases fd.alignAfter <;> rfl

theorem readFieldBody_data (cfg : Config) (idx : Nat) (vals : List (Option Value))
    (fd : FieldDirective) (e : ByteOrd) (s : RS) (v : Value) (p : Option Value)
    (d : Option Expr) (s1 : RS)
    (h : readFieldBody cfg idx vals fd e s = .ok (v, p, d, s1)) : s1.data = s.data := by
  unfold readFieldBody at h
  cases hp : produceValue cfg vals fd e s with
  | error er =>
    simp only [hp] at h
    cases h
  | ok pr =>
    obtain ⟨v0, sB⟩ := pr
    simp only [hp] at h
    have hsB : sB.data = s.data := produceValue_data cfg vals fd e s v0 sB hp
    cases hh : fd.postHook with
    | none =>
      simp only [hh] at h
      cases h
      rw [applyPostR_data]
      exact hsB
    | some hk =>
      simp only [hh] at h
      cases ht : fd.postTiming with
      | deferredLater =>
        simp only [ht] at h
        cases h
        rw [applyPostR_data]
        exact hsB
      | inlineNow =>
        simp only [ht] at h
        cases hev : evalExpr cfg.args (vals.set idx (some (mapApply fd v0))) hk with
        | error er =>
          simp only [hev] at h
          cases h
        | ok pv =>
          simp only [hev] at h
          cases h
          rw [applyPostR_data]
          exact hsB

theorem restoreIf_data (flag : Bool) (sp : Nat) (s : RS) : (restoreIf flag sp s).data = s.data := by
  unfold restoreIf
  cases flag <;> rfl

theorem readField_data (cfg : Config) (tO vO : Option ByteOrd) (idx : Nat)
    (vals : List (Option Value)) (fd : FieldDirective) (s : RS) (v : Value)
    (p : Option Value) (d : Option Expr) (s1 : RS)
    (h : readField cfg tO vO idx vals fd s = .ok (v, p, d, s1)) : s1.data = s.data := by
  unfold readField at h
  cases hres : resolveEndian cfg tO vO fd.endianOverride vals with
  | error er =>
    simp only [hres] at h
    cases h
  | ok e =>
    simp only [hres] at h
    have hafter : ∀ (s2 : RS),
        readFieldAfterCond cfg idx vals fd e s.pos (applyPreR fd s) = .ok (v, p, d, s1) →
        s1.data = s.data := by
      intro s2x hh
      unfold readFieldAfterCond at hh
      cases hm : readMagicOpt fd.magicBytes (applyPreR fd s) with
      | error er =>
        simp only [hm] at hh
        cases hh
      | ok sm =>
        simp only [hm] at hh
        have hsm : sm.data = s.data := by
          rw [readMagicOpt_data fd.magicBytes (applyPreR fd s) sm hm, applyPreR_data]
        by_cases htf : fd.tryFlag
        · rw [if_pos htf] at hh
          cases hb : readFieldBody cfg idx vals fd e sm with
          | error er =>
            simp only [hb] at hh
            cases hh
            exact hsm
          | ok q =>
            obtain ⟨vq, pq, dq, sq⟩ := q
            simp only [hb] at hh
            cases hh
            rw [restoreIf_data]
            rw [readFieldBody_data cfg idx vals fd e sm _ _ _ _ hb]
            exact hsm
        · rw [if_neg htf] at hh
          cases hb : readFieldBody cfg idx vals fd e sm with
          | error er =>
            simp only [hb] at hh
            cases hh
          | ok q =>
            obtain ⟨vq, pq, dq, sq⟩ := q
            simp only [hb] at hh
            cases hh
            rw [restoreIf_data]
            rw [readFieldBody_data cfg idx vals fd e sm _ _ _ _ hb]
            exact hsm
    cases hc : fd.condExpr with
    | none =>
      simp only [hc] at h
      exact hafter s h
    | some c =>
      simp only [hc] at h
      cases hev : evalCondE cfg.args vals c with
      | error er =>
        simp only [hev] at h
        cases h
      | ok r =>
        simp only [hev] at h
        cases r with
        | false =>
          simp only [] at h
          cases h
          rw [restoreIf_data, applyPreR_data]
        | true =>
          simp only [] at h
          exact hafter s h


theorem applyPreR_id (fd : FieldDirective) (s : RS) (hp : FieldPlain fd) :
    applyPreR fd s = s := by
  obtain ⟨_, _, h1, h2, _, _⟩ := hp
  unfold applyPreR applyOptPadR applyOptAlignR
  rw [h1, h2]

theorem applyPostR_id (fd : FieldDirective) (s : RS) (hp : FieldPlain fd) :
    applyPostR fd s = s := by
  obtain ⟨_, _, _, _, h1, h2⟩ := hp
  unfold applyPostR applyOptPadR applyOptAlignR
  rw [h1, h2]

theorem applyPreW_id (fd : FieldDirective) (w : WS) (hp : FieldPlain fd) :
    applyPreW fd w = w := by
  obtain ⟨_, _, h1, h2, _, _⟩ := hp
  unfold applyPreW applyOptPadW applyOptAlignW
  rw [h1, h2]

theorem applyPostW_id (fd : FieldDirective) (w : WS) (hp : FieldPlain fd) :
    applyPostW fd w = w := by
  obtain ⟨_, _, _, _, h1, h2⟩ := hp
  unfold applyPostW applyOptPadW applyOptAlignW
  rw [h1, h2]

theorem restoreIf_self (flag : Bool) (s : RS) : restoreIf flag s.pos s = s := by
  unfold restoreIf
  cases flag <;> rfl

theorem restoreIfW_pos (flag : Bool) (sp : Nat) (w : WS) :
    (restoreIfW flag sp w).pos = if flag then sp else w.pos := by
  unfold restoreIfW
  cases flag <;> rfl

theorem restoreIfW_data (flag : Bool) (sp : Nat) (w : WS) :
    (restoreIfW flag sp w).data = w.data := by
  unfold restoreIfW
  cases flag <;> rfl

theorem readFieldsAux_mono (cfg : Config) (tO vO : Option ByteOrd) :
    ∀ (fds : List FieldDirective) (idx : Nat) (vals posts : List (Option Value))
      (defs : List (Nat × Expr)) (s : RS) (lo : LoopOut),
      readFieldsAux cfg tO vO fds idx vals posts defs s = .ok lo →
      (∀ j, idx ≤ j → ∀ ov, vals[j]? = some ov → ov = none) →
      valsLe vals lo.vals := by
  intro fds
  induction fds with
  | nil =>
    intro idx vals posts defs s lo h _
    cases h
    exact fun i v hv => hv
  | cons fd rest ih =>
    intro idx vals posts defs s lo h hfresh
    simp only [readFieldsAux] at h
    cases hf : readField cfg tO vO idx vals fd s with
    | error er =>
      simp only [hf] at h
      cases h
    | ok q =>
      obtain ⟨v, p, d, s1⟩ := q
      simp only [hf] at h
      have hfresh1 : ∀ j, idx + 1 ≤ j → ∀ ov,
          (vals.set idx (some v))[j]? = some ov → ov = none := by
        intro j hj ov hov
        rw [List.getElem?_set_ne (by omega)] at hov
        exact hfresh j (by omega) ov hov
      have hle1 : valsLe (vals.set idx (some v)) lo.vals :=
        ih (idx + 1) _ _ _ _ lo h hfresh1
      intro i w hw
      apply hle1
      by_cases hi : i = idx
      · subst hi
        exact absurd (hfresh i (le_refl _) (some w) hw) (by simp)
      · rw [List.getElem?_set_ne (fun hcon => hi hcon.symm)]
        exact hw

theorem readFieldsAux_allSome (cfg : Config) (tO vO : Option ByteOrd) :
    ∀ (fds : List FieldDirective) (idx : Nat) (vals posts : List (Option Value))
      (defs : List (Nat × Expr)) (s : RS) (lo : LoopOut),
      readFieldsAux cfg tO vO fds idx vals posts defs s = .ok lo →
      vals.length = idx + fds.length →
      (∀ j, j < idx → ∃ x, vals[j]? = some (some x)) →
      ∀ j, j < lo.vals.length → ∃ x, lo.vals[j]? = some (some x) := by
  intro fds
  induction fds with
  | nil =>
    intro idx vals posts defs s lo h hlen hsome
    cases h
    intro j hj
    exact hsome j (by simp at hj hlen; omega)
  | cons fd rest ih =>
    intro idx vals posts defs s lo h hlen hsome
    simp only [readFieldsAux] at h
    cases hf : readField cfg tO vO idx vals fd s with
    | error er =>
      simp only [hf] at h
      cases h
    | ok q =>
      obtain ⟨v, p, d, s1⟩ := q
      simp only [hf] at h
      have hidx : idx < vals.length := by simp at hlen; omega
      refine ih (idx + 1) (vals.set idx (some v)) _ _ _ lo h (by simp at hlen ⊢; omega) ?_ 
      intro j hj
      by_cases hji : j = idx
      · subst hji
        exact ⟨v, List.getElem?_set_self hidx⟩
      · rw [List.getElem?_set_ne (fun hcon => hji hcon.symm)]
        exact hsome j (by omega)

theorem readFieldsAux_data (cfg : Config) (tO vO : Option ByteOrd) :
    ∀ (fds : List FieldDirective) (idx : Nat) (vals posts : List (Option Value))
      (defs : List (Nat × Expr)) (s : RS) (lo : LoopOut),
      readFieldsAux cfg tO vO fds idx vals posts defs s = .ok lo →
      lo.rs.data = s.data := by
  intro fds
  induction fds with
  | nil =>
    intro idx vals posts defs s lo h
    cases h
    rfl
  | cons fd rest ih =>
    intro idx vals posts defs s lo h
    simp only [readFieldsAux] at h
    cases hf : readField cfg tO vO idx vals fd s with
    | error er =>
      simp only [hf] at h
      cases h
    | ok q =>
      obtain ⟨v, p, d, s1⟩ := q
      simp only [hf] at h
      rw [ih (idx + 1) _ _ _ _ lo h]
      exact readField_data cfg tO vO idx vals fd s v p d s1 hf


theorem restoreIfW_self (flag : Bool) (w : WS) : restoreIfW flag w.pos w = w := by
  unfold restoreIfW
  cases flag <;> rfl

theorem writeElems_matches (e : ByteOrd) (wd : Nat) :
    ∀ (n : Nat) (s : RS) (vs : List Value) (s1 : RS) (w : WS),
      ValidBytes s.data →
      readElems e wd n s = .ok (vs, s1) →
      WInv s.data s.pos w →
      ∃ w1, writeElems e wd vs w = .ok w1 ∧ WInv s.data s1.pos w1 ∧ s.pos ≤ s1.pos := by
  intro n
  induction n with
  | zero =>
    intro s vs s1 w _ h hw
    cases h
    exact ⟨w, rfl, hw, le_refl _⟩
  | succ n0 ih =>
    intro s vs s1 w hv h hw
    simp only [readElems] at h
    cases hr : rReadBytes wd s with
    | error er =>
      simp only [hr] at h
      cases h
    | ok pr =>
      obtain ⟨bs, sm⟩ := pr
      simp only [hr] at h
      cases hrec : readElems e wd n0 sm with
      | error er =>
        simp only [hrec] at h
        cases h
      | ok pr2 =>
        obtain ⟨vs0, s2⟩ := pr2
        simp only [hrec] at h
        cases h
        obtain ⟨hbs, hdata, hpos, hbound, hlen⟩ := rReadBytes_ok wd s bs sm hr
        have hbsval : ∀ b ∈ bs, b < 256 := by
          rw [hbs]
          exact fun b hb => hv b (List.mem_of_mem_drop (List.mem_of_mem_take hb))
        have hcodec : intToBytes e wd (bytesToInt e bs) = bs := by
          rw [← hlen]
          exact intToBytes_bytesToInt e bs hbsval
        have hw2 : WInv s.data (s.pos + bs.length) (wWriteBytes bs w) := by
          apply wWriteBytes_inv s.data bs s.pos w hw
          · rw [hlen]
            exact hbound
          · rw [hlen]
            exact hbs
        rw [hlen] at hw2
        have hstep := ih sm vs0 _ (wWriteBytes bs w) (by rw [hdata]; exact hv) hrec
          (by rw [hdata, hpos]; exact hw2)
        obtain ⟨w1, hw1, hinv, hle⟩ := hstep
        refine ⟨w1, ?_, ?_, ?_⟩
        · simp only [writeElems, hcodec]
          exact hw1
        · rw [hdata] at hinv
          exact hinv
        · omega

theorem writeMagic_matches (mB : Option (List Nat)) (s sm : RS) (w : WS)
    (hread : readMagicOpt mB s = .ok sm) (hv : ValidBytes s.data)
    (hw : WInv s.data s.pos w) :
    WInv s.data sm.pos (writeMagicW mB w) ∧ sm.data = s.data ∧ s.pos ≤ sm.pos := by
  cases mB with
  | none =>
    cases hread
    exact ⟨hw, rfl, le_refl _⟩
  | some m =>
    simp only [readMagicOpt] at hread
    unfold readMagic at hread
    cases hr : rReadBytes m.length s with
    | error er =>
      simp only [hr] at hread
      cases hread
    | ok pr =>
      obtain ⟨bs, sm2⟩ := pr
      simp only [hr] at hread
      by_cases heq : bs = m
      · rw [if_pos heq] at hread
        cases hread
        obtain ⟨hbs, hdata, hpos, hbound, hlen⟩ := rReadBytes_ok m.length s bs _ hr
        refine ⟨?_, hdata, by omega⟩
        show WInv s.data _ (wWriteBytes m w)
        rw [hpos]
        have := wWriteBytes_inv s.data m s.pos w hw (by omega)
          (by conv_lhs => rw [← heq, hbs])
        simpa using this
      · rw [if_neg heq] at hread
        cases hread

theorem produce_emit_matches (cfg : Config) (vals : List (Option Value))
    (fd : FieldDirective) (e : ByteOrd) (sm : RS) (v0 : Value) (sB : RS) (w2 : WS)
    (hplain : FieldPlain fd)
    (hv : ValidBytes sm.data)
    (hprod : produceValue cfg vals fd e sm = .ok (v0, sB))
    (hw2 : WInv sm.data sm.pos w2) :
    v0.isAbsent = false ∧ sB.data = sm.data ∧ sm.pos ≤ sB.pos ∧
    ∃ w3, emitValue fd e v0 w2 = .ok w3 ∧ WInv sm.data sB.pos w3 := by
  obtain ⟨hmap, hcalc, _, _, _, _⟩ := hplain
  unfold produceValue at hprod
  by_cases hdf : fd.defaultFlag
  · rw [if_pos hdf] at hprod
    cases hprod
    have habs : (defaultVal fd).isAbsent = false := by
      unfold defaultVal Value.isAbsent
      cases fd.countExpr <;> rfl
    refine ⟨habs, rfl, le_refl _, ⟨w2, ?_, hw2⟩⟩
    simp [emitValue, habs, hdf]
  · rw [if_neg hdf] at hprod
    simp only [hcalc] at hprod
    cases hcnt : fd.countExpr with
    | some ce =>
      simp only [hcnt] at hprod
      cases hev : evalExpr cfg.args vals ce with
      | error er =>
        simp only [hev] at hprod
        cases hprod
      | ok vv =>
        cases vv with
        | vint n =>
          simp only [hev] at hprod
          by_cases hneg : n < 0
          · rw [if_pos hneg] at hprod
            cases hprod
          · rw [if_neg hneg] at hprod
            cases hel : readElems e fd.width n.toNat sm with
            | error er =>
              simp only [hel] at hprod
              cases hprod
            | ok pr =>
              obtain ⟨vs, s2⟩ := pr
              simp only [hel] at hprod
              cases hprod
              obtain ⟨w3, hw3, hinv, hle⟩ :=
                writeElems_matches e fd.width n.toNat sm vs _ w2 hv hel hw2
              refine ⟨rfl, readElems_data e fd.width n.toNat sm vs _ hel, hle,
                ⟨w3, ?_, hinv⟩⟩
              simp [emitValue, Value.isAbsent, hdf, hcalc, hcnt, hw3]
        | vseq vs =>
          simp only [hev] at hprod
          cases hprod
        | vtag j q =>
          simp only [hev] at hprod
          cases hprod
        | absent =>
          simp only [hev] at hprod
          cases hprod
    | none =>
      simp only [hcnt] at hprod
      cases hr : rReadBytes fd.width sm with
      | error er =>
        simp only [hr] at hprod
        cases hprod
      | ok pr =>
        obtain ⟨bs, s2⟩ := pr
        simp only [hr] at hprod
        cases hprod
        obtain ⟨hbs, hdata, hpos, hbound, hlen⟩ := rReadBytes_ok fd.width sm bs _ hr
        have hbsval : ∀ b ∈ bs, b < 256 := by
          rw [hbs]
          exact fun b hb => hv b (List.mem_of_mem_drop (List.mem_of_mem_take hb))
        have hcodec : intToBytes e fd.width (bytesToInt e bs) = bs := by
          rw [← hlen]
          exact intToBytes_bytesToInt e bs hbsval
        have hw3 : WInv sm.data (sm.pos + bs.length) (wWriteBytes bs w2) := by
          apply wWriteBytes_inv sm.data bs sm.pos w2 hw2 (by omega)
          rw [hlen]
          exact hbs
        refine ⟨rfl, hdata, by omega, ⟨wWriteBytes bs w2, ?_, ?_⟩⟩
        · simp [emitValue, Value.isAbsent, hdf, hcalc, hcnt, hcodec]
        · rw [hpos, ← hlen]
          exact hw3


theorem writeFieldAfterCond_matches (cfg : Config) (idx : Nat)
    (vals : List (Option Value)) (fd : FieldDirective) (s : RS) (e : ByteOrd)
    (vv : Value) (p : Option Value) (d : Option Expr) (s1 : RS)
    (record : List Value) (w : WS)
    (hread : readFieldAfterCond cfg idx vals fd e s.pos (applyPreR fd s) = .ok (vv, p, d, s1))
    (hplain : FieldPlain fd) (hv : ValidBytes s.data)
    (hrec : record[idx]? = some vv) (hw : WInv s.data s.pos w) :
    ∃ w1, writeFieldAfterCond fd e idx record w.pos w = .ok w1 ∧ WInv s.data s1.pos w1 := by
  rw [applyPreR_id fd s hplain] at hread
  unfold readFieldAfterCond at hread
  cases hm : readMagicOpt fd.magicBytes s with
  | error er =>
    simp only [hm] at hread
    cases hread
  | ok sm =>
    simp only [hm] at hread
    obtain ⟨hwM, hsmd, hsmp⟩ := writeMagic_matches fd.magicBytes s sm w hm hv hw
    have hbodyCase : ∀ (bv : Value) (bp : Option Value) (bd : Option Expr) (s3 : RS),
        readFieldBody cfg idx vals fd e sm = .ok (bv, bp, bd, s3) →
        vv = bv → s1 = restoreIf fd.restorePosition s.pos s3 →
        ∃ w1, writeFieldAfterCond fd e idx record w.pos w = .ok w1 ∧
          WInv s.data s1.pos w1 := by
      intro bv bp bd s3 hb hvv hs1
      unfold readFieldBody at hb
      cases hprod : produceValue cfg vals fd e sm with
      | error er =>
        simp only [hprod] at hb
        cases hb
      | ok pr =>
        obtain ⟨v0, sB⟩ := pr
        simp only [hprod] at hb
        have hbv_s3 : bv = mapApply fd v0 ∧ s3 = applyPostR fd sB := by
          cases hh : fd.postHook with
          | none =>
            simp only [hh] at hb
            cases hb
            exact ⟨rfl, rfl⟩
          | some hk =>
            cases ht : fd.postTiming with
            | deferredLater =>
              simp only [hh, ht] at hb
              cases hb
              exact ⟨rfl, rfl⟩
            | inlineNow =>
              simp only [hh, ht] at hb
              cases hev : evalExpr cfg.args (vals.set idx (some (mapApply fd v0))) hk with
              | error er =>
                simp only [hev] at hb
                cases hb
              | ok pv =>
                simp only [hev] at hb
                cases hb
                exact ⟨rfl, rfl⟩
        obtain ⟨hbv, hs3⟩ := hbv_s3
        have hmap_id : mapApply fd v0 = v0 := by
          unfold mapApply
          rw [hplain.1]
        obtain ⟨habs, hsBd, hsBp, w3, hemit, hw3⟩ :=
          produce_emit_matches cfg vals fd e sm v0 sB (writeMagicW fd.magicBytes w)
            hplain (by rw [hsmd]; exact hv) hprod (by rw [hsmd]; exact hwM)
        have habs2 : vv.isAbsent = false := by
          rw [hvv, hbv, hmap_id]
          exact habs
        have hunmap : unmapValue fd vv = vv := by
          unfold unmapValue
          rw [hplain.1]
        refine ⟨restoreIfW fd.restorePosition w.pos (applyPostW fd w3), ?_, ?_⟩
        · unfold writeFieldAfterCond
          rw [hrec]
          simp only [habs2, Bool.false_eq_true, if_false]
          rw [hunmap, hvv, hbv, hmap_id, hemit]
        · rw [applyPostW_id fd w3 hplain, hs1, hs3, applyPostR_id fd sB hplain]
          rw [hsmd] at hw3
          obtain ⟨hq1, hq2, hq3⟩ := hw3
          cases hflag : fd.restorePosition with
          | false =>
            exact ⟨hq1, hq2, hq3⟩
          | true =>
            refine ⟨?_, ?_, ?_⟩
            · show w.pos = s.pos
              exact hw.1
            · show w.pos ≤ w3.data.length
              have h1 := hw.1
              omega
            · exact hq3
    by_cases htf : fd.tryFlag
    · rw [if_pos htf] at hread
      cases hb : readFieldBody cfg idx vals fd e sm with
      | ok q =>
        obtain ⟨bv, bp, bd, s3⟩ := q
        simp only [hb] at hread
        cases hread
        exact hbodyCase _ _ _ _ hb rfl rfl
      | error er =>
        simp only [hb] at hread
        cases hread
        refine ⟨restoreIfW fd.restorePosition w.pos w, ?_, ?_⟩
        · unfold writeFieldAfterCond
          rw [hrec]
          rfl
        · rw [restoreIfW_self]
          exact hw
    · rw [if_neg htf] at hread
      cases hb : readFieldBody cfg idx vals fd e sm with
      | ok q =>
        obtain ⟨bv, bp, bd, s3⟩ := q
        simp only [hb] at hread
        cases hread
        exact hbodyCase _ _ _ _ hb rfl rfl
      | error er =>
        simp only [hb] at hread
        cases hread

theorem writeField_matches (cfg : Config) (tO vO : Option ByteOrd) (idx : Nat)
    (vals : List (Option Value)) (fd : FieldDirective) (s : RS) (vv : Value)
    (p : Option Value) (d : Option Expr) (s1 : RS) (record : List Value) (w : WS)
    (hread : readField cfg tO vO idx vals fd s = .ok (vv, p, d, s1))
    (hplain : FieldPlain fd)
    (hv : ValidBytes s.data)
    (hmono : valsLe vals (record.map some))
    (hrec : record[idx]? = some vv)
    (hw : WInv s.data s.pos w) :
    ∃ w1, writeField cfg tO vO idx record fd w = .ok w1 ∧ WInv s.data s1.pos w1 := by
  unfold readField at hread
  cases hres : resolveEndian cfg tO vO fd.endianOverride vals with
  | error er =>
    simp only [hres] at hread
    cases hread
  | ok e =>
    simp only [hres] at hread
    have hresW : resolveEndian cfg tO vO fd.endianOverride (record.map some) = .ok e :=
      resolveEndian_mono cfg tO vO fd.endianOverride vals (record.map some) hmono e hres
    cases hc : fd.condExpr with
    | none =>
      simp only [hc] at hread
      obtain ⟨w1, hw1, hinv⟩ := writeFieldAfterCond_matches cfg idx vals fd s e vv p d s1
        record w hread hplain hv hrec hw
      refine ⟨w1, ?_, hinv⟩
      simp only [writeField, hresW, hc]
      rw [applyPreW_id fd w hplain]
      exact hw1
    | some c =>
      simp only [hc] at hread
      cases hev : evalCondE cfg.args vals c with
      | error er =>
        simp only [hev] at hread
        cases hread
      | ok r =>
        simp only [hev] at hread
        have hevW : evalCondE cfg.args (record.map some) c = .ok r :=
          evalCondE_mono cfg.args vals (record.map some) hmono c r hev
        cases r with
        | false =>
          simp only [] at hread
          cases hread
          refine ⟨restoreIfW fd.restorePosition w.pos (applyPreW fd w), ?_, ?_⟩
          · simp only [writeField, hresW, hc, hevW]
          · rw [applyPreW_id fd w hplain, restoreIfW_self]
            rw [applyPreR_id fd s hplain, restoreIf_self]
            exact hw
        | true =>
          simp only [] at hread
          obtain ⟨w1, hw1, hinv⟩ := writeFieldAfterCond_matches cfg idx vals fd s e vv p d
            s1 record w hread hplain hv hrec hw
          refine ⟨w1, ?_, hinv⟩
          simp only [writeField, hresW, hc, hevW]
          rw [applyPreW_id fd w hplain]
          exact hw1


theorem writeFieldsAux_matches (cfg : Config) (tO vO : Option ByteOrd) :
    ∀ (fds : List FieldDirective) (idx : Nat) (vals posts : List (Option Value))
      (defs : List (Nat × Expr)) (s : RS) (lo : LoopOut) (record : List Value) (w : WS),
      readFieldsAux cfg tO vO fds idx vals posts defs s = .ok lo →
      (∀ fd ∈ fds, FieldPlain fd) →
      ValidBytes s.data →
      record.map some = lo.vals →
      (∀ j, idx ≤ j → ∀ ov, vals[j]? = some ov → ov = none) →
      vals.length = idx + fds.length →
      WInv s.data s.pos w →
      ∃ w1, writeFieldsAux cfg tO vO record fds idx w = .ok w1 ∧
        WInv s.data lo.rs.pos w1 := by
  intro fds
  induction fds with
  | nil =>
    intro idx vals posts defs s lo record w h _ _ _ _ _ hw
    cases h
    exact ⟨w, rfl, hw⟩
  | cons fd rest ih =>
    intro idx vals posts defs s lo record w h hplain hv hrec hfresh hlen hw
    simp only [readFieldsAux] at h
    cases hf : readField cfg tO vO idx vals fd s with
    | error er =>
      simp only [hf] at h
      cases h
    | ok q =>
      obtain ⟨v, p, d, s1⟩ := q
      simp only [hf] at h
      have hs1d : s1.data = s.data := readField_data cfg tO vO idx vals fd s v p d s1 hf
      have hfresh1 : ∀ j, idx + 1 ≤ j → ∀ ov,
          (vals.set idx (some v))[j]? = some ov → ov = none := by
        intro j hj ov hov
        rw [List.getElem?_set_ne (by omega)] at hov
        exact hfresh j (by omega) ov hov
      have hmono1 : valsLe (vals.set idx (some v)) lo.vals :=
        readFieldsAux_mono cfg tO vO rest (idx + 1) _ _ _ _ lo h hfresh1
      have hidx : idx < vals.length := by simp at hlen; omega
      have hvalsidx : lo.vals[idx]? = some (some v) :=
        hmono1 idx v (List.getElem?_set_self hidx)
      have hrecidx : record[idx]? = some v := by
        rw [← hrec, List.getElem?_map] at hvalsidx
        cases hri : record[idx]? with
        | none =>
          rw [hri] at hvalsidx
          cases hvalsidx
        | some rv =>
          rw [hri] at hvalsidx
          simp at hvalsidx
          rw [hvalsidx]
      have hmono0 : valsLe vals (record.map some) := by
        rw [hrec]
        intro i wv hwv
        apply hmono1
        by_cases hi : i = idx
        · subst hi
          exact absurd (hfresh i (le_refl _) _ hwv) (by simp)
        · rw [List.getElem?_set_ne (fun hcon => hi hcon.symm)]
          exact hwv
      obtain ⟨w1, hw1, hinv1⟩ := writeField_matches cfg tO vO idx vals fd s v p d s1
        record w hf (hplain fd (List.mem_cons_self _ _)) hv hmono0 hrecidx hw
      obtain ⟨w2, hw2, hinv2⟩ := ih (idx + 1) (vals.set idx (some v)) _ _ s1 lo record w1 h
        (fun x hx => hplain x (List.mem_cons_of_mem _ hx))
        (by rw [hs1d]; exact hv)
        hrec hfresh1
        (by simp at hlen ⊢; omega)
        (by rw [hs1d]; exact hinv1)
      refine ⟨w2, ?_, ?_⟩
      · simp only [writeFieldsAux, hw1]
        exact hw2
      · rw [hs1d] at hinv2
        exact hinv2

theorem mapGetD_of_allSome (l : List (Option Value))
    (h : ∀ j, j < l.length → ∃ x, l[j]? = some (some x)) :
    (l.map (fun o => o.getD Value.absent)).map some = l := by
  apply List.ext_getElem?
  intro n
  rw [List.getElem?_map, List.getElem?_map]
  by_cases hn : n < l.length
  · obtain ⟨x, hx⟩ := h n hn
    rw [hx]
    rfl
  · rw [List.getElem?_eq_none (by omega)]
    rfl

theorem writeBody_matches (cfg : Config) (tO vO : Option ByteOrd)
    (magic : Option (List Nat)) (fields : List FieldDirective)
    (asserts : List AssertDirective) (s : RS) (v : Value)
    (posts : List (Option Value)) (s1 : RS) (w : WS)
    (hread : readBody cfg tO vO magic fields asserts s = .ok ((v, posts), s1))
    (hplain : ∀ fd ∈ fields, FieldPlain fd)
    (hv : ValidBytes s.data)
    (hw : WInv s.data s.pos w) :
    ∃ record, v = .vseq record ∧
      ∃ w1, writeBody cfg tO vO magic fields record w = .ok w1 ∧
        WInv s.data s1.pos w1 := by
  unfold readBody at hread
  cases hm : readMagicOpt magic s with
  | error er =>
    simp only [hm] at hread
    cases hread
  | ok sM =>
    simp only [hm] at hread
    obtain ⟨hwM, hsMd, hsMp⟩ := writeMagic_matches magic s sM w hm hv hw
    cases hloop : readFieldsAux cfg tO vO fields 0 (List.replicate fields.length none)
        (List.replicate fields.length none) [] sM with
    | error er =>
      simp only [hloop] at hread
      cases hread
    | ok lo =>
      simp only [hloop] at hread
      cases hdef : runDeferred cfg.args lo.vals lo.defs lo.posts with
      | error er =>
        simp only [hdef] at hread
        cases hread
      | ok posts2 =>
        simp only [hdef] at hread
        cases hass : runAsserts cfg.args lo.vals lo.rs.pos asserts with
        | error er =>
          simp only [hass] at hread
          cases hread
        | ok u =>
          simp only [hass] at hread
          cases hread
          have hallsome := readFieldsAux_allSome cfg tO vO fields 0 _ _ [] sM lo hloop
            (by simp) (by intro j hj; omega)
          have hmapeq : (lo.vals.map (fun o => o.getD Value.absent)).map some = lo.vals :=
            mapGetD_of_allSome lo.vals hallsome
          refine ⟨lo.vals.map (fun o => o.getD Value.absent), rfl, ?_⟩
          obtain ⟨w1, hw1, hinv⟩ := writeFieldsAux_matches cfg tO vO fields 0
            (List.replicate fields.length none) (List.replicate fields.length none) [] sM
            lo (lo.vals.map (fun o => o.getD Value.absent)) (writeMagicW magic w)
            hloop hplain (by rw [hsMd]; exact hv) hmapeq
            (by
              intro j hj ov hov
              rw [List.getElem?_replicate] at hov
              by_cases hjn : j < fields.length
              · rw [if_pos hjn] at hov
                cases hov
                rfl
              · rw [if_neg hjn] at hov
                cases hov)
            (by simp)
            (by rw [hsMd]; exact hwM)
          refine ⟨w1, ?_, ?_⟩
          · unfold writeBody
            exact hw1
          · rw [hsMd] at hinv
            exact hinv

theorem readVariantsAux_ok_inv (cfg : Config) (tO : Option ByteOrd) (mode : VariantMode)
    (start : RS) :
    ∀ (vs : List VariantDesc) (idx : Nat) (acc : List Err) (val : Value)
      (posts : List (Option Value)) (s1 : RS),
      readVariantsAux cfg tO mode start vs idx acc = .ok ((val, posts), s1) →
      ∃ (j : Nat) (vd : VariantDesc) (v0 : Value), val = .vtag (idx + j) v0 ∧
        vs[j]? = some vd ∧ readVariant cfg tO vd start = .ok ((v0, posts), s1) := by
  intro vs
  induction vs with
  | nil =>
    intro idx acc val posts s1 h
    unfold readVariantsAux at h
    cases mode with
    | collectAll => cases h
    | firstMatch =>
      cases hL : acc.getLast? with
      | none =>
        simp only [hL] at h
        cases h
      | some er =>
        simp only [hL] at h
        cases h
  | cons vd0 rest ih =>
    intro idx acc val posts s1 h
    simp only [readVariantsAux] at h
    cases hr : readVariant cfg tO vd0 start with
    | ok res =>
      obtain ⟨⟨v0, posts0⟩, s0⟩ := res
      simp only [hr] at h
      cases h
      exact ⟨0, vd0, v0, by simp, by simp, hr⟩
    | error er =>
      simp only [hr] at h
      obtain ⟨j, vd, v0, hval, hj, hok⟩ := ih (idx + 1) (acc ++ [er]) val posts s1 h
      refine ⟨j + 1, vd, v0, ?_, by simpa using hj, hok⟩
      rw [hval]
      congr 1
      omega


/-- C3, counterexample to the claim as stated: the descriptor with one
byte field behind a single pad-before byte has no map or calc fields and
its pad filler is the canonical deterministic zero, yet the bytes 255, 1
parse successfully (consuming both bytes) while writing the parsed value
back produces 0, 1: the writer's deterministic filler cannot reproduce the
arbitrary skipped input byte. -/
theorem claim_c3_counterexample :
    readType cfgBig padByteDesc { data := [255, 1], pos := 0 } =
      .ok ((.vseq [.vint 1], [none]), { data := [255, 1], pos := 2 }) ∧
    writeType cfgBig padByteDesc (.vseq [.vint 1]) { data := [], pos := 0 } =
      .ok { data := [0, 1], pos := 2 } ∧
    ([0, 1] : List Nat) ≠ [255, 1] := ⟨rfl, rfl, by decide⟩

/-- C3 as amended: for every TypeDescriptor with no map and no calc fields
and no padding or alignment directives (the engine cannot check an inverse,
so every mapping is treated as potentially lossy, and even deterministic
filler cannot reproduce arbitrary skipped bytes), and for every genuine
byte sequence that the descriptor parses successfully consuming it
entirely under a Configuration with no starting offset, writing the parsed
value back reproduces the bytes exactly. -/
theorem claim_c3_roundtrip :
    ∀ (cfg : Config) (td : TypeDescriptor) (bytes : List Nat) (v : Value)
      (posts : List (Option Value)) (s1 : RS),
      cfg.startOffset = none →
      NoLossyTd td →
      ValidBytes bytes →
      readType cfg td { data := bytes, pos := 0 } = .ok ((v, posts), s1) →
      s1.pos = bytes.length →
      writeType cfg td v { data := [], pos := 0 } =
        .ok { data := bytes, pos := bytes.length } := by
  intro cfg td bytes v posts s1 hoff hnl hv hread hall
  have hstartR : startAtR cfg { data := bytes, pos := 0 } = { data := bytes, pos := 0 } := by
    unfold startAtR
    rw [hoff]
  have hstartW : startAtW cfg { data := [], pos := 0 } = { data := [], pos := 0 } := by
    unfold startAtW
    rw [hoff]
  have hw0 : WInv bytes 0 { data := [], pos := 0 } := ⟨rfl, by simp, by simp [PrefList]⟩
  cases td with
  | structD sd =>
    unfold readType at hread
    rw [hstartR] at hread
    unfold readStructD at hread
    obtain ⟨record, hvrec, w1, hw1, hinv⟩ := writeBody_matches cfg sd.typeEndian none
      sd.magicBytes sd.fields sd.asserts { data := bytes, pos := 0 } v posts s1
      { data := [], pos := 0 } hread hnl hv hw0
    subst hvrec
    unfold writeType
    simp only [hstartW]
    rw [hw1]
    obtain ⟨h1, h2, h3⟩ := hinv
    have hlen3 : w1.data.length ≤ bytes.length := by
      have hc := congrArg List.length h3
      simp [PrefList, List.length_take] at hc
      omega
    have hdlen : w1.data.length = bytes.length := by omega
    have hdata : w1.data = bytes := by
      rw [PrefList] at h3
      rw [h3, hdlen, List.take_length]
    have hw1eq : w1 = { data := bytes, pos := bytes.length } := by
      cases w1 with
      | mk dd pp =>
        simp at hdata h1 ⊢
        exact ⟨hdata, by rw [h1, hall]⟩
    rw [hw1eq]
  | enumD ed =>
    unfold readType at hread
    rw [hstartR] at hread
    unfold readEnumD at hread
    obtain ⟨j, vd, v0, hval, hj, hok⟩ := readVariantsAux_ok_inv cfg ed.typeEndian ed.mode
      { data := bytes, pos := 0 } ed.variants 0 [] v posts s1 hread
    rw [Nat.zero_add] at hval
    have hmem : vd ∈ ed.variants := by
      obtain ⟨hlt, hget⟩ := List.getElem?_eq_some_iff.mp hj
      rw [← hget]
      exact List.getElem_mem hlt
    unfold readVariant at hok
    obtain ⟨record, hvrec, w1, hw1, hinv⟩ := writeBody_matches cfg ed.typeEndian
      vd.variantEndian vd.magicBytes vd.fields vd.asserts { data := bytes, pos := 0 } v0
      posts s1 { data := [], pos := 0 } hok (hnl vd hmem) hv hw0
    subst hvrec
    subst hval
    unfold writeType
    simp only [hstartW, hj]
    rw [hw1]
    obtain ⟨h1, h2, h3⟩ := hinv
    have hlen3 : w1.data.length ≤ bytes.length := by
      have hc := congrArg List.length h3
      simp [PrefList, List.length_take] at hc
      omega
    have hdlen : w1.data.length = bytes.length := by omega
    have hdata : w1.data = bytes := by
      rw [PrefList] at h3
      rw [h3, hdlen, List.take_length]
    have hw1eq : w1 = { data := bytes, pos := bytes.length } := by
      cases w1 with
      | mk dd pp =>
        simp at hdata h1 ⊢
        exact ⟨hdata, by rw [h1, hall]⟩
    rw [hw1eq]


/-- Witness for C3 at the magic descriptor: the parsed value of the TEST
stream writes back to exactly that stream. -/
theorem claim_c3_witness :
    writeType cfgBig testMagicDesc (.vseq [.vint 1]) { data := [], pos := 0 } =
      .ok { data := [84, 69, 83, 84, 0, 0, 0, 1], pos := 8 } :=
  claim_c3_roundtrip cfgBig testMagicDesc [84, 69, 83, 84, 0, 0, 0, 1] (.vseq [.vint 1])
    [none] { data := [84, 69, 83, 84, 0, 0, 0, 1], pos := 8 } rfl
    (by
      intro fd hfd
      fin_cases hfd
      exact ⟨rfl, rfl, rfl, rfl, rfl, rfl⟩)
    (by intro b hb; fin_cases hb <;> decide) rfl rfl

end BinSpec








